import Mathlib

/-!
# Verification of the columnar compute / encoding fragments

Shallow embedding of:

* the hashed unique / dictionary-encode kernel of
  `cpp/src/arrow/compute/kernels/hash.cc` (primitive-type path);
* the cast kernels exercised by `cpp/src/arrow/compute/compute-test.cc`
  (the kernel implementation itself is not part of the source tree, so those
  are modelled from the specification);
* the dictionary encoder and the delta-bit-packed decoder of
  `cpp/src/parquet/encoding-internal.h`.

Machine integers are embedded as `Int`/`Nat` with explicit wrap-around where
the width matters.  Fallible code returns `Option`.  All definitions are
executable.
-/

set_option autoImplicit false

/-! ## Hash table kernel (`cpp/src/arrow/compute/kernels/hash.cc`)

The primitive-type `HashTableKernel` keeps
* `hash_slots_`: a buffer of `int32` slots, the sentinel `INT32_MAX` marking
  an empty slot;
* `hash_table_size_`: the capacity, a power of two (`mod_bitmask_` is
  `hash_table_size_ - 1`);
* `dict_` (`HashDictionary`): the dense vector of distinct values, in
  insertion order.

We embed the slots as a `List Int` of length `hashTableSize` and the
dictionary as the list of its first `size` entries (the C++ buffer additionally
holds uninitialised capacity; reads past `size` do not occur on the traces we
reason about, and are modelled by a default of `0`).

The hash function `HashUtil::Hash` lives in `arrow/util/hash-util.h`, outside
the source tree; the spec requires of it only determinism, so the embedding
takes the hash as a parameter `h : Int → Nat`.

The `HASH_INNER_LOOP` macro is embedded with its interior `//` comments read
as per-line comments, i.e. with the clearly intended semantics of the
fragment (the spec itself notes the fragment contains textual damage).

The load-factor test `dict_.size > hash_table_size_ * kMaxHashTableLoad`
compares an integer against `capacity * 0.7` in binary floating point; for the
power-of-two capacities that occur, `10 * size > 7 * capacity` decides exactly
the same way (the fractional part of `0.7 * 2^k` keeps a distance ≥ 0.2 from
the integers, far above the rounding error of the double `0.7`).
-/

/-- `kHashSlotEmpty = std::numeric_limits<int32_t>::max()` from hash.cc. -/
def kHashSlotEmpty : Int := 2147483647

/-- `kInitialHashTableSize = 1 << 10` from hash.cc. -/
def kInitialHashTableSize : Nat := 1024

/-- The mutable state of `HashTableKernel<Type, Action, enable_if_primitive_ctype>`. -/
structure HashTableState where
  hashSlots : List Int
  hashTableSize : Nat
  dictValues : List Int
  deriving DecidableEq, Repr

/-- Read `hash_slots_[j]` (out-of-range reads, which do not occur on the runs
we study, default to the empty sentinel). -/
def slotAt (s : HashTableState) (j : Nat) : Int :=
  s.hashSlots.getD j kHashSlotEmpty

/-- Read `dict_.values[slot]` (the C++ buffer read; in-range on the runs we
study, default `0` otherwise). -/
def dictGet (s : HashTableState) (slot : Int) : Int :=
  s.dictValues.getD slot.toNat 0

/-- `hash & mod_bitmask_`: the probe start position. -/
def hashMask (h : Nat) (size : Nat) : Nat := h &&& (size - 1)

/-- The probe loop of `HASH_INNER_LOOP` (hash.cc:249-279): advance while the
slot is occupied by a different value, wrapping at `hash_table_size_`; stop on
an empty slot or on the slot of `value`.  Fuelled (the C++ loop relies on the
load factor to terminate); returns the final position and its content. -/
def probeLoop (s : HashTableState) (value : Int) : Nat → Nat → Option (Nat × Int)
  | 0, _ => none
  | fuel + 1, j =>
    let slot := slotAt s j
    if slot ≠ kHashSlotEmpty ∧ dictGet s slot ≠ value then
      let j1 := j + 1
      probeLoop s value fuel (if j1 = s.hashTableSize then 0 else j1)
    else
      some (j, slot)

/-- `j = HashValue(value) & mod_bitmask_` followed by the probe loop. -/
def hashProbe (h : Int → Nat) (s : HashTableState) (value : Int) : Option (Nat × Int) :=
  probeLoop s value (s.hashTableSize + 1) (hashMask (h value) s.hashTableSize)

/-- The probe loop of `DoubleTableSize` (hash.cc:344-350): find an empty slot
in the *new* table.  NOTE (faithful to the source): the wrap test is
`j == hash_table_size_`, the **old** capacity, although the loop walks the
doubled table. -/
def probeEmptyLoop (slots : List Int) (wrapAt : Nat) : Nat → Nat → Option Nat
  | 0, _ => none
  | fuel + 1, j =>
    if slots.getD j kHashSlotEmpty ≠ kHashSlotEmpty then
      let j1 := j + 1
      probeEmptyLoop slots wrapAt fuel (if j1 = wrapAt then 0 else j1)
    else
      some j

/-- The load-factor trigger `dict_.size > hash_table_size_ * kMaxHashTableLoad`
(`kMaxHashTableLoad = 0.7`), decided exactly by `10·size > 7·capacity`. -/
def loadExceeded (dictSize tableSize : Nat) : Bool :=
  7 * tableSize < 10 * dictSize

/-- The loop body of `DoubleTableSize` for old-table position `i`: skip an
empty slot; otherwise re-insert its dense index at a position probed from
`HashValue(value) & new_mod_bitmask` — the probe wrapping, as the source does,
at the **old** size `s.hashTableSize`. -/
def resizeStep (h : Int → Nat) (s : HashTableState)
    (acc : Option (List Int)) (i : Nat) : Option (List Int) :=
  match acc with
  | none => none
  | some newSlots =>
    let index := slotAt s i
    if index = kHashSlotEmpty then some newSlots
    else
      match probeEmptyLoop newSlots s.hashTableSize (s.hashTableSize * 2 + 1)
          (hashMask (h (dictGet s index)) (s.hashTableSize * 2)) with
      | some j => some (newSlots.set j index)
      | none => none

/-- `DoubleTableSize` (hash.cc:323-362): allocate a table of twice the size,
re-insert every occupied slot, then install the new table. -/
def doubleTableSize (h : Int → Nat) (s : HashTableState) : Option HashTableState :=
  match (List.range s.hashTableSize).foldl (resizeStep h s)
      (some (List.replicate (s.hashTableSize * 2) kHashSlotEmpty)) with
  | some newSlots =>
      some { hashSlots := newSlots, hashTableSize := s.hashTableSize * 2,
             dictValues := s.dictValues }
  | none => none

/-- One execution of `HASH_INNER_LOOP` for a non-null `value`: probe; if the
final slot is empty, insert the value with the next dense index and double the
table when the load factor is exceeded; otherwise return the found index.
The returned `Int` is the dense index handed to `ObserveFound`/
`ObserveNotFound`. -/
def appendOne (h : Int → Nat) (s : HashTableState) (value : Int) :
    Option (HashTableState × Int) :=
  match hashProbe h s value with
  | none => none
  | some (j, slot) =>
    if slot = kHashSlotEmpty then
      let newIdx : Int := Int.ofNat s.dictValues.length
      let s1 : HashTableState :=
        { hashSlots := s.hashSlots.set j newIdx,
          hashTableSize := s.hashTableSize,
          dictValues := s.dictValues ++ [value] }
      if loadExceeded s1.dictValues.length s1.hashTableSize then
        match doubleTableSize h s1 with
        | some s2 => some (s2, newIdx)
        | none => none
      else some (s1, newIdx)
    else some (s, slot)

/-- `Append` (hash.cc:239-305) over one chunk, an array of
(validity, value-bytes) pairs.  A null position calls `ObserveNull` (for
`DictEncodeImpl`: append an unset index, modelled `none`); a valid one runs
`HASH_INNER_LOOP` (for `DictEncodeImpl`: append the dense index).
`UniqueImpl`'s observers are no-ops, so its table evolves identically and its
result is the first component alone. -/
def appendArray (h : Int → Nat) :
    HashTableState → List (Bool × Int) → Option (HashTableState × List (Option Int))
  | s, [] => some (s, [])
  | s, (valid, v) :: rest =>
    if valid then
      match appendOne h s v with
      | none => none
      | some (s1, idx) =>
        match appendArray h s1 rest with
        | none => none
        | some (s2, out) => some (s2, some idx :: out)
    else
      match appendArray h s rest with
      | none => none
      | some (s2, out) => some (s2, none :: out)

/-- `HashTable::Init(kInitialHashTableSize)`: a fresh, all-empty table. -/
def initState (size : Nat) : HashTableState :=
  { hashSlots := List.replicate size kHashSlotEmpty,
    hashTableSize := size,
    dictValues := [] }

/-- `Unique(datum)` on a single chunk: run `Append`, then `GetDictionary`
(the first `dict_.size` values of the dictionary buffer). -/
def uniqueRun (h : Int → Nat) (arr : List (Bool × Int)) : Option (List Int) :=
  (appendArray h (initState kInitialHashTableSize) arr).map (fun p => p.1.dictValues)

/-- `DictionaryEncode(datum)` on a single chunk: the shared dictionary and the
per-position index stream (`none` = null index). -/
def dictEncodeRun (h : Int → Nat) (arr : List (Bool × Int)) :
    Option (List Int × List (Option Int)) :=
  (appendArray h (initState kInitialHashTableSize) arr).map
    (fun p => (p.1.dictValues, p.2))

/-! ### Closed forms for a run that crosses the resize boundary

With the deterministic hash `fun _ => 1023` (the spec demands of the external
`HashUtil::Hash` only determinism) and the pairwise distinct values
`0, 1, …, 716`, the kernel inserts value `0` at slot `1023` and value `k ≥ 1`
at slot `k − 1`; the 717th insertion exceeds the load factor
(`717 > 0.7 · 1024`) and triggers `DoubleTableSize`. -/

/-- A constant (hence deterministic) hash function colliding at slot 1023. -/
def hashConst1023 : Int → Nat := fun _ => 1023

/-- The slot contents after inserting `0, …, k−1` (for `1 ≤ k ≤ 717`):
slot `1023` holds dense index `0`, slots `0, …, k−2` hold `1, …, k−1`. -/
def slotFunA (k : Nat) (j : Nat) : Int :=
  if j + 1 < k then Int.ofNat (j + 1)
  else if j = 1023 then 0
  else kHashSlotEmpty

/-- The kernel state after appending the values `0, …, k−1` (for
`1 ≤ k ≤ 717`; at `k = 717` this is the state handed to `DoubleTableSize`). -/
def stateA (k : Nat) : HashTableState :=
  { hashSlots := (List.range 1024).map (slotFunA k),
    hashTableSize := 1024,
    dictValues := (List.range k).map Int.ofNat }

/-- The slot contents produced by the resize while processing the first `m`
occupied old slots (`0 ≤ m ≤ 716`, old slots `0, …, m−1` carrying dense
indices `1, …, m`): the first re-insertion lands on slot `1023`, all later
ones wrap — at the *old* size — to slots `0, 1, …`. -/
def slotFunMid (m : Nat) (j : Nat) : Int :=
  if j + 2 ≤ m then Int.ofNat (j + 2)
  else if j = 1023 ∧ 1 ≤ m then 1
  else kHashSlotEmpty

/-- The slot contents after the full resize: dense indices `2, …, 716` sit in
slots `0, …, 714`, index `0` in slot `715`, index `1` in slot `1023`, and the
whole upper half `[1024, 2048)` is empty. -/
def slotFunB (j : Nat) : Int :=
  if j + 2 ≤ 716 then Int.ofNat (j + 2)
  else if j = 715 then 0
  else if j = 1023 then 1
  else kHashSlotEmpty

/-- The kernel state right after `DoubleTableSize`: capacity 2048, dictionary
still `0, …, 716`. -/
def stateB : HashTableState :=
  { hashSlots := (List.range 2048).map slotFunB,
    hashTableSize := 2048,
    dictValues := (List.range 717).map Int.ofNat }

/-- The column that exhibits the duplicate: the distinct values `0, …, 716`
followed by a second occurrence of `0`. -/
def xBug : List (Bool × Int) :=
  (List.range 717).map (fun i => (true, Int.ofNat i)) ++ [(true, 0)]

/-- What the kernel actually returns as `unique(xBug)`: value `0` twice. -/
def dupDict : List Int :=
  (List.range 717).map Int.ofNat ++ [0]

/-- The state after the full `xBug` run: value `0` was re-inserted under the
fresh dense index 717 at slot 1024. -/
def stateC : HashTableState :=
  { hashSlots := ((List.range 2048).map slotFunB).set 1024 717,
    hashTableSize := 2048,
    dictValues := dupDict }

/-- The wellformedness of a kernel state used by the idempotence theorem:
slot buffer length matches the capacity, the dictionary is small enough that
a fresh dense index cannot collide with the empty sentinel, and every
occupied slot stores a dense index of an existing dictionary entry. -/
def SlotsWF (s : HashTableState) : Prop :=
  0 < s.hashTableSize ∧
  s.hashSlots.length = s.hashTableSize ∧
  s.dictValues.length < 2147483647 ∧
  ∀ j, j < s.hashTableSize → slotAt s j ≠ kHashSlotEmpty →
    0 ≤ slotAt s j ∧ (slotAt s j).toNat < s.dictValues.length

instance (s : HashTableState) : Decidable (SlotsWF s) := by
  unfold SlotsWF; infer_instance

/-! ## Cast kernels (modelled from the spec)

The cast kernel implementation (`compute/kernels/cast.cc`) is not part of the
source tree — only its tests (`compute-test.cc`) are — so the two cast paths
the claims need are modelled from the specification (§4.C5).  An array is a
list of `(validity, value)` pairs; the value component of a null slot carries
arbitrary bytes. -/

/-- Modelled from the spec: the closed universe of integer element types,
signed or unsigned, of widths 8/16/32/64 (§3). -/
structure IntColType where
  signed : Bool
  bits : Nat
  deriving DecidableEq, Repr

/-- The smallest value representable in the type. -/
def IntColType.minVal (t : IntColType) : Int :=
  if t.signed then -(2 ^ (t.bits - 1)) else 0

/-- The largest value representable in the type. -/
def IntColType.maxVal (t : IntColType) : Int :=
  if t.signed then 2 ^ (t.bits - 1) - 1 else 2 ^ t.bits - 1

/-- Whether `v` is representable in `t`. -/
def IntColType.fits (t : IntColType) (v : Int) : Bool :=
  decide (t.minVal ≤ v ∧ v ≤ t.maxVal)

/-- Modelled from the spec: integer → integer cast with
`allow_int_overflow = false` (§4.C5): any narrowing conversion that loses
value fails with `Invalid` (`none`); overflow checks examine only positions
with validity 1; the output preserves the validity bitmap exactly, and a null
output slot's value bytes are unspecified (the builder zero-fills, modelled by
`0`). -/
def castIntSafe (tgt : IntColType) (arr : List (Bool × Int)) :
    Option (List (Bool × Int)) :=
  if arr.all (fun e => !e.1 || tgt.fits e.2) then
    some (arr.map (fun e => (e.1, if e.1 then e.2 else 0)))
  else none

/-- Modelled from the spec: the four time units and their scales per second
(§4.C5: multipliers among s:1, ms:10³, µs:10⁶, ns:10⁹). -/
inductive ColTimeUnit where
  | second
  | milli
  | micro
  | nano
  deriving DecidableEq, Repr

/-- Subunits per second of a unit. -/
def ColTimeUnit.scale : ColTimeUnit → Nat
  | .second => 1
  | .milli => 1000
  | .micro => 1000000
  | .nano => 1000000000

/-- Modelled from the spec: timestamp(u) → timestamp(v) cast (§4.C5).  When
`u` is coarser (or equal), multiply by the integer unit ratio; when finer,
divide (truncation toward zero, i.e. integer division in the source
representation), failing with `Invalid` when `allow_time_truncate` is false
and a valid slot has nonzero remainder.  Truncation checks examine only
positions with validity 1. -/
def castTimestamp (u v : ColTimeUnit) (allowTruncate : Bool)
    (arr : List (Bool × Int)) : Option (List (Bool × Int)) :=
  if u.scale ≤ v.scale then
    let ratio : Int := Int.ofNat (v.scale / u.scale)
    some (arr.map (fun e => (e.1, if e.1 then e.2 * ratio else 0)))
  else
    let ratio : Int := Int.ofNat (u.scale / v.scale)
    if allowTruncate then
      some (arr.map (fun e => (e.1, if e.1 then e.2.tdiv ratio else 0)))
    else if arr.all (fun e => !e.1 || e.2 % ratio == 0) then
      some (arr.map (fun e => (e.1, if e.1 then e.2.tdiv ratio else 0)))
    else none

/-- Two arrays agree except possibly in the value bytes of null slots: same
length, pointwise equal validity, and equal values wherever valid. -/
def NullSlotAgree (a b : List (Bool × Int)) : Prop :=
  List.Forall₂ (fun x y => x.1 = y.1 ∧ (x.1 = true → x.2 = y.2)) a b

/-! ## Delta-bit-packed decoder (`cpp/src/parquet/encoding-internal.h`)

`DeltaBitPackDecoder` is embedded from the source.  Its underlying
`BitUtil::BitReader` (`arrow/util/bit-stream-utils.h`) is not part of the
source tree and is modelled from the spec (§4.C3): bit streams are lists of
booleans, LSB-first within each byte; `GetValue w` takes `w` bits;
variable-length integers are LEB128, signed ones zig-zag coded.  The
byte-alignment performed by the aligned reads is a no-op on the streams we
study (the encoder below only produces mini-blocks spanning whole bytes), so
it is not modelled separately.

Faithful to the source, the decoder keeps `last_value_` and `min_delta_` as
**int32** even when instantiated for 64-bit data, and accumulates with
`last_value_ += static_cast<int32_t>(delta)` — i.e. all arithmetic wraps to
32 bits (`wrap32` below). -/

/-- LSB-first bits → value. -/
def bitsToNat : List Bool → Nat
  | [] => 0
  | b :: rest => (if b then 1 else 0) + 2 * bitsToNat rest

/-- Value → `w` LSB-first bits. -/
def natToBits : Nat → Nat → List Bool
  | 0, _ => []
  | w + 1, n => (n % 2 = 1) :: natToBits w (n / 2)

/-- Modelled from the spec: `BitReader::GetValue(width)` — read `width` bits,
LSB-first; fail (`Eof`) if not enough bits remain. -/
def getValue (w : Nat) (bits : List Bool) : Option (Nat × List Bool) :=
  if w ≤ bits.length then some (bitsToNat (bits.take w), bits.drop w) else none

/-- Modelled from the spec: one LEB128 step per byte, at most 5 bytes for a
32-bit value. -/
def getVlqAux : Nat → List Bool → Option (Nat × List Bool)
  | 0, _ => none
  | fuel + 1, bits =>
    match getValue 8 bits with
    | none => none
    | some (byte, rest) =>
      if byte < 128 then some (byte, rest)
      else
        match getVlqAux fuel rest with
        | none => none
        | some (hi, rest2) => some (byte % 128 + 128 * hi, rest2)

/-- Modelled from the spec: `BitReader::GetVlqInt` (LEB128, unsigned). -/
def getVlq (bits : List Bool) : Option (Nat × List Bool) := getVlqAux 5 bits

/-- Zig-zag decoding of a 32-bit unsigned value (the source reads into
`int32`, so the value is first reduced mod `2^32`). -/
def zigzagDecode (n : Nat) : Int :=
  let m := n % 2 ^ 32
  if m % 2 = 0 then Int.ofNat (m / 2) else -(Int.ofNat (m / 2)) - 1

/-- Modelled from the spec: `BitReader::GetZigZagVlqInt`. -/
def getZigZagVlq (bits : List Bool) : Option (Int × List Bool) :=
  (getVlq bits).map (fun p => (zigzagDecode p.1, p.2))

/-- Modelled from the spec: `GetAligned<uint8>` repeated `k` times (the
mini-block bit-width bytes). -/
def readBytes : Nat → List Bool → Option (List Nat × List Bool)
  | 0, bits => some ([], bits)
  | k + 1, bits =>
    match getValue 8 bits with
    | none => none
    | some (byte, rest) =>
      match readBytes k rest with
      | none => none
      | some (bs, rest2) => some (byte :: bs, rest2)

/-- Two's-complement wrap to int32. -/
def wrap32 (z : Int) : Int := (z + 2 ^ 31) % 2 ^ 32 - 2 ^ 31

/-- The mutable state of `DeltaBitPackDecoder`. -/
structure DeltaState where
  bits : List Bool
  numValues : Nat
  valuesCurrentBlock : Nat
  numMiniBlocks : Nat
  valuesPerMini : Nat
  valuesCurrentMini : Nat
  minDelta : Int
  widths : List Nat
  miniBlockIdx : Nat
  deltaBitWidth : Nat
  lastValue : Int
  deriving DecidableEq, Repr

/-- `InitBlock` (encoding-internal.h:412-434): read the block header —
`block_size`, `num_mini_blocks`, `values_in_block` (vlq), `first_value`
(zig-zag, stored into `last_value_`), `min_delta` (zig-zag), then one
bit-width byte per mini-block; set `values_per_mini_block_ =
block_size / num_mini_blocks` and arm the first mini-block. -/
def initBlock (s : DeltaState) : Option DeltaState :=
  match getVlq s.bits with
  | none => none
  | some (blockSize, b1) =>
    match getVlq b1 with
    | none => none
    | some (numMini, b2) =>
      match getVlq b2 with
      | none => none
      | some (vib, b3) =>
        match getZigZagVlq b3 with
        | none => none
        | some (firstv, b4) =>
          match getZigZagVlq b4 with
          | none => none
          | some (minD, b5) =>
            match readBytes numMini b5 with
            | none => none
            | some (ws, b6) =>
              some { s with
                bits := b6,
                valuesCurrentBlock := vib,
                numMiniBlocks := numMini,
                valuesPerMini := blockSize / numMini,
                valuesCurrentMini := blockSize / numMini,
                minDelta := minD,
                widths := ws,
                miniBlockIdx := 0,
                deltaBitWidth := ws.getD 0 0,
                lastValue := firstv }

/-- The body of the main loop of `GetInternal` once a delta is to be read:
`delta` at the current mini-block bit width, `delta += min_delta_`,
`last_value_ += static_cast<int32_t>(delta)` (32-bit wrap), emit, decrement
the mini-block counter. -/
def decodeStep (s : DeltaState) : Option (Int × DeltaState) :=
  match getValue s.deltaBitWidth s.bits with
  | none => none
  | some (raw, rest) =>
    let lv := wrap32 (s.lastValue + wrap32 (s.minDelta + Int.ofNat raw))
    let s1 : DeltaState :=
      { s with
        bits := rest
        lastValue := lv
        valuesCurrentMini := s.valuesCurrentMini - 1 }
    some (lv, s1)

/-- The loop of `GetInternal` (encoding-internal.h:436-463), one iteration
per requested value: on an exhausted mini-block either advance to the next
mini-block (and fall through to a delta read) or — when the block is
exhausted — read the next block header and emit its `first_value` without
consuming a delta. -/
def getLoop : Nat → DeltaState → Option (List Int × DeltaState)
  | 0, s => some ([], s)
  | n + 1, s =>
    if s.valuesCurrentMini = 0 then
      if s.miniBlockIdx + 1 < s.widths.length then
        let s1 : DeltaState :=
          { s with miniBlockIdx := s.miniBlockIdx + 1,
                   deltaBitWidth := s.widths.getD (s.miniBlockIdx + 1) 0,
                   valuesCurrentMini := s.valuesPerMini }
        match decodeStep s1 with
        | none => none
        | some (v, s2) =>
          match getLoop n s2 with
          | none => none
          | some (vs, s3) => some (v :: vs, s3)
      else
        match initBlock s with
        | none => none
        | some s2 =>
          match getLoop n s2 with
          | none => none
          | some (vs, s3) => some (s2.lastValue :: vs, s3)
    else
      match decodeStep s with
      | none => none
      | some (v, s2) =>
        match getLoop n s2 with
        | none => none
        | some (vs, s3) => some (v :: vs, s3)

/-- `SetData` (encoding-internal.h:398-403): arm the reader; the width table
is still unallocated, so the first loop iteration necessarily reads a block
header. -/
def deltaSetData (stream : List Bool) (numValues : Nat) : DeltaState :=
  { bits := stream, numValues := numValues, valuesCurrentBlock := 0,
    numMiniBlocks := 0, valuesPerMini := 0, valuesCurrentMini := 0,
    minDelta := 0, widths := [], miniBlockIdx := 0, deltaBitWidth := 0,
    lastValue := 0 }

/-- `Decode`/`GetInternal`: decode `min(maxValues, num_values_)` values. -/
def deltaDecode (stream : List Bool) (numValues maxValues : Nat) :
    Option (List Int) :=
  (getLoop (min maxValues numValues) (deltaSetData stream numValues)).map
    (fun p => p.1)

/-! ### A block encoder, modelled from the spec (§4.C8, §6), used to state the
round-trip theorem. -/

/-- Value → 8 LSB-first bits (one byte). -/
def byteBits (n : Nat) : List Bool := natToBits 8 n

/-- Modelled from the spec: LEB128 encoding (≤ 5 bytes, values < 2³²). -/
def encodeVlqAux : Nat → Nat → List Bool
  | 0, _ => []
  | fuel + 1, n =>
    if n < 128 then byteBits n
    else byteBits (n % 128 + 128) ++ encodeVlqAux fuel (n / 128)

/-- Modelled from the spec: LEB128 encoding of a 32-bit value. -/
def encodeVlq (n : Nat) : List Bool := encodeVlqAux 5 n

/-- Zig-zag encoding of an int32 value. -/
def zigzagEncode (v : Int) : Nat :=
  if 0 ≤ v then 2 * v.toNat else 2 * (-v).toNat - 1

/-- Modelled from the spec: zig-zag LEB128 encoding. -/
def encodeZigZagVlq (v : Int) : List Bool := encodeVlq (zigzagEncode v)

/-- Pack a list of values at `w` bits each, LSB-first. -/
def packBits (w : Nat) (ds : List Nat) : List Bool := ds.flatMap (natToBits w)

/-- One block of a delta-bit-packed stream: the first value, the per-block
minimum delta, the mini-block size, and per mini-block its bit width and its
raw deltas. -/
structure BlockSpec where
  first : Int
  minDelta : Int
  per : Nat
  minis : List (Nat × List Nat)
  deriving DecidableEq, Repr

/-- Modelled from the spec: the wire format of one block — `block_size`,
`num_mini_blocks`, `values_in_block` (vlq), `first_value`, `min_delta`
(zig-zag vlq), the bit-width bytes, then the packed mini-block deltas. -/
def encodeBlockSpec (b : BlockSpec) : List Bool :=
  encodeVlq (b.per * b.minis.length) ++ encodeVlq b.minis.length ++
  encodeVlq (b.per * b.minis.length) ++ encodeZigZagVlq b.first ++
  encodeZigZagVlq b.minDelta ++ (b.minis.map Prod.fst).flatMap byteBits ++
  b.minis.flatMap (fun m => packBits m.1 m.2)

/-- The value sequence produced by one mini-block's deltas, and the final
`last_value_`: `v = wrap32 (last + wrap32 (min_delta + raw))` for each raw
delta. -/
def runDeltas (lv minD : Int) : List Nat → List Int × Int
  | [] => ([], lv)
  | d :: ds =>
    let v := wrap32 (lv + wrap32 (minD + Int.ofNat d))
    let r := runDeltas v minD ds
    (v :: r.1, r.2)

/-- The value sequence over a list of mini-blocks. -/
def runMinis (lv minD : Int) : List (Nat × List Nat) → List Int × Int
  | [] => ([], lv)
  | m :: ms =>
    let r := runDeltas lv minD m.2
    let r2 := runMinis r.2 minD ms
    (r.1 ++ r2.1, r2.2)

/-- All values a block contributes: its first value, then one value per delta. -/
def blockExpected (b : BlockSpec) : List Int :=
  b.first :: (runMinis b.first b.minDelta b.minis).1

/-- The number of values a block contributes. -/
def blockCount (b : BlockSpec) : Nat := 1 + b.per * b.minis.length

/-- Wellformedness of a block: at least one mini-block, a positive mini-block
size, 32-bit header ranges, every mini-block carrying exactly `per` deltas
that fit its declared bit width, and mini-blocks spanning whole bytes (the
byte-alignment restriction under which the modelled reader agrees with the
aligned one). -/
def BlockWF (b : BlockSpec) : Prop :=
  0 < b.per ∧ 0 < b.minis.length ∧ b.per * b.minis.length < 2 ^ 31 ∧
  b.minis.length < 2 ^ 31 ∧
  -(2 ^ 31) ≤ b.first ∧ b.first < 2 ^ 31 ∧
  -(2 ^ 31) ≤ b.minDelta ∧ b.minDelta < 2 ^ 31 ∧
  ∀ m ∈ b.minis, m.1 < 256 ∧ m.2.length = b.per ∧ m.1 * b.per % 8 = 0 ∧
    ∀ d ∈ m.2, d < 2 ^ m.1

instance (b : BlockSpec) : Decidable (BlockWF b) := by
  unfold BlockWF; infer_instance

/-- The single-block stream whose decode exhibits the 32-bit truncation:
`first = 0`, `min_delta = 2^30`, one mini-block of four zero deltas at bit
width 0. -/
def bugBlock : BlockSpec :=
  { first := 0, minDelta := 2 ^ 30, per := 4, minis := [(0, [0, 0, 0, 0])] }

/-- A concrete wellformed block: `first = 5`, `min_delta = -2`, one
mini-block of eight one-bit deltas. -/
def deltaBlockA : BlockSpec :=
  { first := 5, minDelta := -2, per := 8,
    minis := [(1, [1, 0, 1, 1, 0, 0, 1, 0])] }

/-- A concrete wellformed block: `first = 100`, `min_delta = 3`, one
mini-block of eight zero-bit deltas. -/
def deltaBlockB : BlockSpec :=
  { first := 100, minDelta := 3, per := 8,
    minis := [(0, [0, 0, 0, 0, 0, 0, 0, 0])] }

/-! ## File dictionary encoder (`cpp/src/parquet/encoding-internal.h`)

`DictEncoder<DType>` is embedded from the source.  Its memo table
(`arrow/util/hashing.h`, `ScalarMemoTable` / `BinaryMemoTable`) is not part of
the source tree and is modelled from the spec (§4.C4): an insertion-ordered
value → dense-index map whose `GetOrInsert` returns the existing index of an
observed value and otherwise assigns the next dense index.  Likewise the
`RleEncoder` (`arrow/util/rle-encoding.h`) used by `WriteIndices` is modelled
from the spec (§4.C3) as a run codec writing bit-packed groups of 8 values.

The encoder state is generic in the element type `α` together with the number
of dictionary-page bytes each distinct entry accounts for (`entryBytes`) and
its serialized form (`serialize`); the `Put` specializations instantiate:
* primitive `T`: `sizeof(T)` per entry, raw little-endian bytes;
* `ByteArray`: `sizeof(uint32) + len` per entry, `u32_le` length ++ payload;
* `FLBA`: `type_length` per entry, the raw payload. -/

/-- Modelled from the spec: `MemoTable::GetOrInsert` — the existing dense
index if the value was observed, otherwise the next dense index; the returned
flag records whether `on_not_found` was called. -/
def memoGetOrInsert {α : Type} [DecidableEq α] (memo : List α) (v : α) :
    Nat × List α × Bool :=
  match memo.indexOf? v with
  | some i => (i, memo, false)
  | none => (memo.length, memo ++ [v], true)

/-- The mutable state of `DictEncoder`: the memo table, the running
`dict_encoded_size_` counter and the `buffered_indices_` vector. -/
structure DictEncState (α : Type) where
  memoTable : List α
  dictEncodedSize : Nat
  bufferedIndices : List Nat
  deriving DecidableEq, Repr

/-- The fresh encoder state (`dict_encoded_size_(0)`, empty buffers). -/
def dictEncInit (α : Type) : DictEncState α :=
  { memoTable := [], dictEncodedSize := 0, bufferedIndices := [] }

/-- `DictEncoder::Put(v)` (encoding-internal.h:296-335): `GetOrInsert` with an
`on_not_found` that adds this entry's dictionary-page bytes to
`dict_encoded_size_`; the dense index is appended to `buffered_indices_`. -/
def dictPut {α : Type} [DecidableEq α] (entryBytes : α → Nat)
    (s : DictEncState α) (v : α) : DictEncState α :=
  match memoGetOrInsert s.memoTable v with
  | (i, memo1, isNew) =>
    { memoTable := memo1,
      dictEncodedSize := s.dictEncodedSize + (if isNew then entryBytes v else 0),
      bufferedIndices := s.bufferedIndices ++ [i] }

/-- `Put(values, n)`: `Put` each value in order. -/
def dictPutMany {α : Type} [DecidableEq α] (entryBytes : α → Nat)
    (s : DictEncState α) (vs : List α) : DictEncState α :=
  vs.foldl (dictPut entryBytes) s

/-- `PutSpaced`: `Put` only the positions whose validity bit is set. -/
def dictPutSpaced {α : Type} [DecidableEq α] (entryBytes : α → Nat)
    (s : DictEncState α) (vs : List (Bool × α)) : DictEncState α :=
  vs.foldl (fun acc e => if e.1 then dictPut entryBytes acc e.2 else acc) s

/-- A call against the encoder's `Put` surface. -/
inductive DictOp (α : Type) where
  | put : α → DictOp α
  | putMany : List α → DictOp α
  | putSpaced : List (Bool × α) → DictOp α
  deriving DecidableEq, Repr

/-- The values a call feeds to the memo table (for `PutSpaced`, the valid
positions only). -/
def dictOpValues {α : Type} : DictOp α → List α
  | .put v => [v]
  | .putMany vs => vs
  | .putSpaced vs => (vs.filter (fun e => e.1)).map (fun e => e.2)

/-- Apply one call. -/
def applyDictOp {α : Type} [DecidableEq α] (entryBytes : α → Nat)
    (s : DictEncState α) : DictOp α → DictEncState α
  | .put v => dictPut entryBytes s v
  | .putMany vs => dictPutMany entryBytes s vs
  | .putSpaced vs => dictPutSpaced entryBytes s vs

/-- Apply a sequence of calls. -/
def applyDictOps {α : Type} [DecidableEq α] (entryBytes : α → Nat)
    (s : DictEncState α) (ops : List (DictOp α)) : DictEncState α :=
  ops.foldl (applyDictOp entryBytes) s

/-- `WriteDict` (encoding-internal.h:337-363): emit the dictionary entries in
insertion order, each in its serialized form. -/
def writeDict {α : Type} (serialize : α → List Nat) (s : DictEncState α) :
    List Nat :=
  s.memoTable.flatMap serialize

/-- The `n` little-endian bytes of a (two's-complement) integer value. -/
def intLEBytes (n : Nat) (v : Int) : List Nat :=
  (List.range n).map (fun i => ((v % 2 ^ (8 * n)).toNat / 2 ^ (8 * i)) % 256)

/-- The `n` little-endian bytes of an unsigned value. -/
def natLEBytes (n : Nat) (v : Nat) : List Nat :=
  (List.range n).map (fun i => v / 2 ^ (8 * i) % 256)

/-- `DictEncoder<ByteArrayType>::WriteDict`: a 4-byte little-endian length
followed by the payload. -/
def byteArraySerialize (v : List Nat) : List Nat := natLEBytes 4 v.length ++ v

/-! ### `WriteIndices` and the RLE index page -/

/-- `BitUtil::Log2` — `ceil(log2 n)`, with enough fuel to terminate for any
`n` not above the fuel. -/
def ceilLog2Aux : Nat → Nat → Nat
  | 0, _ => 0
  | fuel + 1, n => if n ≤ 1 then 0 else ceilLog2Aux fuel ((n + 1) / 2) + 1

/-- `DictEncoder::bit_width()` (encoding-internal.h:223-227): `0` for an empty
dictionary, `1` for a single entry, else `ceil(log2(num_entries))`. -/
def dictBitWidth (numEntries : Nat) : Nat :=
  if numEntries = 0 then 0
  else if numEntries = 1 then 1
  else ceilLog2Aux numEntries numEntries

/-- LSB-first bit list → bytes, with enough fuel to terminate: one byte per
group of 8 bits (the writer flushes byte-aligned; a trailing partial byte is
zero-padded). -/
def bitsToBytesAux : Nat → List Bool → List Nat
  | 0, _ => []
  | _, [] => []
  | fuel + 1, bs => bitsToNat (bs.take 8) :: bitsToBytesAux fuel (bs.drop 8)

/-- LSB-first bit list → bytes. -/
def bitsToBytes (bs : List Bool) : List Nat := bitsToBytesAux bs.length bs

/-- Modelled from the spec: the RLE/bit-packed run codec of §4.C3, emitting
bit-packed groups of 8 values — header `(1 <<< 1) ||| 1 = 3`, then the 8
values packed at `w` bits (a final partial group is zero-padded). -/
def rleEncodeAux (w : Nat) : Nat → List Nat → List Nat
  | 0, _ => []
  | _, [] => []
  | fuel + 1, xs =>
    3 :: bitsToBytes (packBits w (xs.take 8 ++ List.replicate (8 - xs.length) 0)) ++
      rleEncodeAux w fuel (xs.drop 8)

/-- The bytes of the RLE index stream for one buffered-index list. -/
def rleEncodeBytes (w : Nat) (xs : List Nat) : List Nat :=
  rleEncodeAux w xs.length xs

/-- `RleEncoder::MaxBufferSize` of the modelled codec: one header byte plus
`w` packed bytes per group of 8. -/
def rleMaxBufferSize (w n : Nat) : Nat := ((n + 7) / 8) * (1 + w)

/-- `EstimatedDataEncodedSize` (encoding-internal.h:211-220): the bit-width
byte, the worst-case run bytes, and the extra `MinBufferSize` slack the
encoder requires. -/
def estimatedDataEncodedSize {α : Type} (s : DictEncState α) : Nat :=
  1 + rleMaxBufferSize (dictBitWidth s.memoTable.length) s.bufferedIndices.length +
    (1 + dictBitWidth s.memoTable.length)

/-- The full payload `WriteIndices` would produce: one byte of `bit_width`,
then the RLE-encoded buffered indices. -/
def writeIndicesBytes {α : Type} (s : DictEncState α) : List Nat :=
  dictBitWidth s.memoTable.length ::
    rleEncodeBytes (dictBitWidth s.memoTable.length) s.bufferedIndices

/-- `WriteIndices(buffer, buffer_len)` (encoding-internal.h:365-380): write
the bit width and the runs; if the buffer cannot hold them some `Put` fails
and `-1` is returned **without** `ClearIndices()`; on success the byte count
is returned and the indices are cleared.  The third component is the buffer
contents on success. -/
def writeIndices {α : Type} (s : DictEncState α) (bufferLen : Nat) :
    Int × DictEncState α × List Nat :=
  if (writeIndicesBytes s).length ≤ bufferLen then
    (Int.ofNat (writeIndicesBytes s).length,
     { s with bufferedIndices := [] }, writeIndicesBytes s)
  else (-1, s, [])

/-- A concrete encoder state: two distinct two-byte entries and four buffered
indices. -/
def c10State : DictEncState (List Nat) :=
  { memoTable := [[7, 7], [5, 5]], dictEncodedSize := 12,
    bufferedIndices := [0, 1, 1, 0] }

/-! ## Null-type hash kernel (`hash.cc:164-192`)

`HashTableKernel<Type, Action, enable_if_null>` never initializes a hash
table: `Append` merely calls `ObserveNull` once per position and
`GetDictionary` returns a length-0 null array.  For `UniqueImpl` the
observers are no-ops; for `DictEncodeImpl` each `ObserveNull` appends an
unset index slot. -/

/-- The `Append` loop of the null-type kernel as seen by `DictEncodeImpl`:
one null index per position. -/
def nullAppendIndices : Nat → List (Option Int)
  | 0 => []
  | n + 1 => none :: nullAppendIndices n

/-- `Unique` on a null column of length `n`: `GetDictionary` returns a
length-0 array whatever `n` was. -/
def nullUniqueRun (_ : Nat) : List Int := []

/-- `DictionaryEncode` on a null column of length `n`: the empty dictionary
and `n` null index slots. -/
def nullDictEncodeRun (n : Nat) : List Int × List (Option Int) :=
  ([], nullAppendIndices n)

/-- The first `k` positions of `xBug`: the valid values `0, …, k−1`. -/
def prefixVals (k : Nat) : List (Bool × Int) :=
  (List.range k).map (fun i => (true, Int.ofNat i))

/-- The state a second `get_or_insert(716)` leaves behind after the resize:
value `716` — though already present at dense index 716 — is re-inserted at
slot 1024 under the fresh dense index 717. -/
def stateD : HashTableState :=
  { hashSlots := ((List.range 2048).map slotFunB).set 1024 717,
    hashTableSize := 2048,
    dictValues := (List.range 717).map Int.ofNat ++ [716] }

/-! ## Theorems

### List helpers -/

theorem getD_range_map {α : Type} (n j : Nat) (f : Nat → α) (d : α) :
    ((List.range n).map f).getD j d = if j < n then f j else d := by
  by_cases hj : j < n
  · simp [List.getD_eq_getElem?_getD, List.getElem?_map, List.getElem?_range hj, hj]
  · have hle : (List.range n).length ≤ j := by simpa using Nat.le_of_not_lt hj
    simp [List.getD_eq_getElem?_getD, List.getElem?_map, List.getElem?_eq_none hle, hj]

theorem set_range_map {α : Type} (n j : Nat) (f : Nat → α) (v : α) :
    j < n →
    ((List.range n).map f).set j v =
      (List.range n).map (fun i => if i = j then v else f i) := by
  intro hj
  apply List.ext_getElem?
  intro m
  by_cases hm : m < n
  · rw [List.getElem?_set]
    simp only [List.getElem?_map, List.getElem?_range hm, List.length_map,
      List.length_range, Option.map_some']
    by_cases hjm : j = m
    · subst hjm; simp [hj]
    · simp [hjm, Ne.symm hjm]
  · have hle : ((List.range n).map f).length ≤ m := by
      simpa using Nat.le_of_not_lt hm
    have hle2 : (((List.range n).map f).set j v).length ≤ m := by
      simpa using hle
    have hle3 : ((List.range n).map fun i => if i = j then v else f i).length ≤ m := by
      simpa using Nat.le_of_not_lt hm
    rw [List.getElem?_eq_none hle2, List.getElem?_eq_none hle3]

/-! ### Probe-loop lemmas -/

theorem probeLoop_scan (s : HashTableState) (v : Int) (b : Nat)
    (hb : b < s.hashTableSize)
    (hstop : ¬(slotAt s b ≠ kHashSlotEmpty ∧ dictGet s (slotAt s b) ≠ v)) :
    ∀ fuel a, a ≤ b → b - a < fuel →
    (∀ j, a ≤ j → j < b → slotAt s j ≠ kHashSlotEmpty ∧ dictGet s (slotAt s j) ≠ v) →
    probeLoop s v fuel a = some (b, slotAt s b) := by
  intro fuel
  induction fuel with
  | zero => intro a _ h; omega
  | succ fuel ih =>
    intro a hab hfuel hocc
    by_cases hab2 : a = b
    · subst hab2
      simp only [probeLoop]
      rw [if_neg hstop]
    · have ha : a < b := lt_of_le_of_ne hab hab2
      simp only [probeLoop]
      rw [if_pos (hocc a le_rfl ha)]
      rw [if_neg (by omega : ¬a + 1 = s.hashTableSize)]
      exact ih (a + 1) (by omega) (by omega) (fun j hj1 hj2 => hocc j (by omega) hj2)

theorem probeLoop_step_wrap (s : HashTableState) (v : Int) (fuel j : Nat)
    (hj : j + 1 = s.hashTableSize)
    (hocc : slotAt s j ≠ kHashSlotEmpty ∧ dictGet s (slotAt s j) ≠ v) :
    probeLoop s v (fuel + 1) j = probeLoop s v fuel 0 := by
  simp only [probeLoop]
  rw [if_pos hocc, if_pos hj]

theorem probeEmptyLoop_scan (slots : List Int) (wrapAt : Nat) (b : Nat)
    (hb : ∀ j1, j1 ≤ b → j1 ≠ wrapAt)
    (hstop : slots.getD b kHashSlotEmpty = kHashSlotEmpty) :
    ∀ fuel a, a ≤ b → b - a < fuel →
    (∀ j, a ≤ j → j < b → slots.getD j kHashSlotEmpty ≠ kHashSlotEmpty) →
    probeEmptyLoop slots wrapAt fuel a = some b := by
  intro fuel
  induction fuel with
  | zero => intro a _ h; omega
  | succ fuel ih =>
    intro a hab hfuel hocc
    by_cases hab2 : a = b
    · subst hab2
      simp only [probeEmptyLoop]
      rw [if_neg (by simpa using hstop)]
    · have ha : a < b := lt_of_le_of_ne hab hab2
      simp only [probeEmptyLoop]
      rw [if_pos (hocc a le_rfl ha)]
      rw [if_neg (hb (a + 1) (by omega))]
      exact ih (a + 1) (by omega) (by omega) (fun j hj1 hj2 => hocc j (by omega) hj2)

theorem probeEmptyLoop_step_wrap (slots : List Int) (wrapAt fuel j : Nat)
    (hj : j + 1 = wrapAt)
    (hocc : slots.getD j kHashSlotEmpty ≠ kHashSlotEmpty) :
    probeEmptyLoop slots wrapAt (fuel + 1) j = probeEmptyLoop slots wrapAt fuel 0 := by
  simp only [probeEmptyLoop]
  rw [if_pos hocc, if_pos hj]

/-! ### Evaluation of the closed-form states -/

theorem stateA_size (k : Nat) : (stateA k).hashTableSize = 1024 := rfl

theorem slotAt_stateA (k j : Nat) (hj : j < 1024) :
    slotAt (stateA k) j = slotFunA k j := by
  simp [slotAt, stateA, getD_range_map, hj]

theorem appendOne_found (h : Int → Nat) (s : HashTableState) (v : Int)
    (j : Nat) (idx : Int) (hpr : hashProbe h s v = some (j, idx))
    (hne : idx ≠ kHashSlotEmpty) :
    appendOne h s v = some (s, idx) := by
  rw [appendOne, hpr]
  simp [hne]

theorem appendOne_insert (h : Int → Nat) (s : HashTableState) (v : Int)
    (j : Nat) (hpr : hashProbe h s v = some (j, kHashSlotEmpty))
    (hload : loadExceeded (s.dictValues.length + 1) s.hashTableSize = false) :
    appendOne h s v =
      some ({ hashSlots := s.hashSlots.set j (Int.ofNat s.dictValues.length),
              hashTableSize := s.hashTableSize,
              dictValues := s.dictValues ++ [v] },
            Int.ofNat s.dictValues.length) := by
  rw [appendOne, hpr]
  simp only [if_pos rfl]
  have hlen : (s.dictValues ++ [v]).length = s.dictValues.length + 1 := by simp
  simp [hlen, hload]

theorem appendOne_insert_resize (h : Int → Nat) (s : HashTableState) (v : Int)
    (j : Nat) (s2 : HashTableState)
    (hpr : hashProbe h s v = some (j, kHashSlotEmpty))
    (hload : loadExceeded (s.dictValues.length + 1) s.hashTableSize = true)
    (hdbl : doubleTableSize h
      { hashSlots := s.hashSlots.set j (Int.ofNat s.dictValues.length),
        hashTableSize := s.hashTableSize,
        dictValues := s.dictValues ++ [v] } = some s2) :
    appendOne h s v = some (s2, Int.ofNat s.dictValues.length) := by
  rw [appendOne, hpr]
  simp only [if_pos rfl]
  have hlen : (s.dictValues ++ [v]).length = s.dictValues.length + 1 := by simp
  simp only [Int.ofNat_eq_coe] at hdbl
  simp [hlen, hload, hdbl]

set_option maxRecDepth 1000000

theorem dictGet_stateA (k m : Nat) :
    dictGet (stateA k) (Int.ofNat m) = if m < k then Int.ofNat m else 0 := by
  show ((List.range k).map Int.ofNat).getD (Int.ofNat m).toNat 0 = _
  rw [show (Int.ofNat m).toNat = m from rfl, getD_range_map]

theorem stateA_dictLength (k : Nat) : (stateA k).dictValues.length = k := by
  simp [stateA]

theorem hashMask_1023_1024 : hashMask 1023 1024 = 1023 := by decide

theorem hashMask_1023_2048 : hashMask 1023 2048 = 1023 := by decide

theorem kHashSlotEmpty_ne_ofNat (m : Nat) (hm : m < 2147483647) :
    Int.ofNat m ≠ kHashSlotEmpty := by
  rw [kHashSlotEmpty]
  intro hcontra
  have hm2 : Int.ofNat m = Int.ofNat 2147483647 := hcontra
  have hm3 := Int.ofNat.inj hm2
  omega

theorem stateA_slots_eq (k : Nat) :
    (stateA k).hashSlots = (List.range 1024).map (slotFunA k) := rfl

/-- The probe for the fresh value `k` on `stateA k`: slot 1023 is occupied by
value `0`, the wrap sends the probe to slot 0, and the scan over the occupied
run `0, …, k−2` stops at the empty slot `k−1`. -/
theorem hashProbe_stateA (k : Nat) (hk1 : 1 ≤ k) (hk : k ≤ 716) :
    hashProbe hashConst1023 (stateA k) (Int.ofNat k) =
      some (k - 1, kHashSlotEmpty) := by
  have hocc1023 : slotAt (stateA k) 1023 ≠ kHashSlotEmpty ∧
      dictGet (stateA k) (slotAt (stateA k) 1023) ≠ Int.ofNat k := by
    rw [slotAt_stateA k 1023 (by omega)]
    have h0 : slotFunA k 1023 = Int.ofNat 0 := by
      rw [slotFunA, if_neg (by omega), if_pos rfl]; rfl
    rw [h0]
    refine ⟨kHashSlotEmpty_ne_ofNat 0 (by omega), ?_⟩
    rw [dictGet_stateA, if_pos (by omega)]
    intro hcontra
    have := Int.ofNat.inj hcontra
    omega
  have hempty : slotAt (stateA k) (k - 1) = kHashSlotEmpty := by
    rw [slotAt_stateA k (k - 1) (by omega), slotFunA,
      if_neg (by omega), if_neg (by omega)]
  have hscan : probeLoop (stateA k) (Int.ofNat k) 1024 0 =
      some (k - 1, slotAt (stateA k) (k - 1)) := by
    apply probeLoop_scan (stateA k) (Int.ofNat k) (k - 1)
      (by rw [stateA_size]; omega) (by rw [hempty]; simp) 1024 0 (by omega) (by omega)
    intro j hj0 hj
    rw [slotAt_stateA k j (by omega), slotFunA, if_pos (by omega)]
    refine ⟨kHashSlotEmpty_ne_ofNat (j + 1) (by omega), ?_⟩
    rw [dictGet_stateA, if_pos (by omega)]
    intro hcontra
    have := Int.ofNat.inj hcontra
    omega
  rw [hempty] at hscan
  rw [hashProbe]
  show probeLoop _ _ (1024 + 1) (hashMask 1023 1024) = _
  rw [hashMask_1023_1024,
    probeLoop_step_wrap (stateA k) (Int.ofNat k) 1024 1023 rfl hocc1023]
  exact hscan

/-- Writing the fresh dense index `k` into slot `k−1` turns the slot table of
`stateA k` into that of `stateA (k+1)`. -/
theorem stateA_set (k : Nat) (hk1 : 1 ≤ k) (hk : k ≤ 716) :
    (stateA k).hashSlots.set (k - 1) (Int.ofNat k) =
      (List.range 1024).map (slotFunA (k + 1)) := by
  rw [stateA_slots_eq]
  rw [set_range_map 1024 (k - 1) _ _ (by omega)]
  apply List.map_congr_left
  intro i hi
  simp only [List.mem_range] at hi
  by_cases h : i = k - 1
  · subst h
    rw [if_pos rfl]
    have h4 : (k - 1) + 1 < k + 1 := by omega
    rw [slotFunA, if_pos h4]
    congr 1
    omega
  · rw [if_neg h, slotFunA, slotFunA]
    by_cases h2 : i + 1 < k
    · rw [if_pos h2, if_pos (Nat.lt_succ_of_lt h2)]
    · have h3 : ¬ i + 1 < k + 1 := by omega
      rw [if_neg h2, if_neg h3]

theorem stateA_dict_append (k : Nat) :
    (stateA k).dictValues ++ [Int.ofNat k] = (List.range (k + 1)).map Int.ofNat := by
  show ((List.range k).map Int.ofNat) ++ _ = _
  rw [List.range_succ, List.map_append]
  rfl

/-- One insertion step below the load-factor boundary. -/
theorem appendOne_stateA (k : Nat) (hk1 : 1 ≤ k) (hk : k ≤ 715) :
    appendOne hashConst1023 (stateA k) (Int.ofNat k) =
      some (stateA (k + 1), Int.ofNat k) := by
  have h := appendOne_insert hashConst1023 (stateA k) (Int.ofNat k) (k - 1)
    (hashProbe_stateA k hk1 (by omega))
    (by rw [stateA_dictLength, stateA_size, loadExceeded]; simp; omega)
  rw [h, stateA_dictLength, stateA_set k hk1 (by omega), stateA_dict_append]
  rfl

/-- The very first insertion. -/
theorem appendOne_init :
    appendOne hashConst1023 (initState 1024) (Int.ofNat 0) =
      some (stateA 1, Int.ofNat 0) := by decide

/-! ### Evaluation lemmas for the resize closed forms -/

theorem slotFunMid_occ (m j : Nat) (h : j + 2 ≤ m) :
    slotFunMid m j = Int.ofNat (j + 2) := by
  rw [slotFunMid, if_pos h]

theorem slotFunMid_1023 (m : Nat) (hm : 1 ≤ m) (hm2 : m ≤ 1024) :
    slotFunMid m 1023 = Int.ofNat 1 := by
  rw [slotFunMid, if_neg (by omega), if_pos ⟨rfl, hm⟩]; rfl

theorem slotFunMid_empty (m j : Nat) (h1 : ¬ j + 2 ≤ m) (h2 : j = 1023 → m = 0) :
    slotFunMid m j = kHashSlotEmpty := by
  rw [slotFunMid, if_neg h1, if_neg]
  intro hc
  have := h2 hc.1
  omega

theorem slotFunB_occ (j : Nat) (h : j + 2 ≤ 716) :
    slotFunB j = Int.ofNat (j + 2) := by
  rw [slotFunB, if_pos h]

theorem slotFunB_715 : slotFunB 715 = Int.ofNat 0 := by decide

theorem slotFunB_1023 : slotFunB 1023 = Int.ofNat 1 := by decide

theorem slotFunB_empty (j : Nat) (h1 : ¬ j + 2 ≤ 716) (h2 : ¬ j = 715)
    (h3 : ¬ j = 1023) : slotFunB j = kHashSlotEmpty := by
  rw [slotFunB, if_neg h1, if_neg h2, if_neg h3]

theorem midGetD (m j : Nat) :
    ((List.range 2048).map (slotFunMid m)).getD j kHashSlotEmpty =
      if j < 2048 then slotFunMid m j else kHashSlotEmpty := by
  rw [getD_range_map]

theorem resizeStep_some_occupied (h : Int → Nat) (s : HashTableState)
    (ns : List Int) (i j : Nat) (idx : Int)
    (hocc : slotAt s i = idx) (hne : ¬ idx = kHashSlotEmpty)
    (hpr : probeEmptyLoop ns s.hashTableSize (s.hashTableSize * 2 + 1)
      (hashMask (h (dictGet s idx)) (s.hashTableSize * 2)) = some j) :
    resizeStep h s (some ns) i = some (ns.set j idx) := by
  simp only [resizeStep, hocc, hne, if_false, hpr]

theorem resizeStep_some_empty (h : Int → Nat) (s : HashTableState)
    (ns : List Int) (i : Nat) (hempty : slotAt s i = kHashSlotEmpty) :
    resizeStep h s (some ns) i = some ns := by
  simp only [resizeStep, hempty, if_true]

theorem resize_fold_skip (h : Int → Nat) (s : HashTableState) (l : List Nat)
    (hall : ∀ p ∈ l, slotAt s p = kHashSlotEmpty) :
    ∀ acc, l.foldl (resizeStep h s) acc = acc := by
  induction l with
  | nil => intro acc; rfl
  | cons p l ih =>
    intro acc
    rw [List.foldl_cons]
    have hstep : resizeStep h s acc p = acc := by
      match acc with
      | none => rfl
      | some ns => exact resizeStep_some_empty h s ns p (hall p (by simp))
    rw [hstep]
    exact ih (fun q hq => hall q (by simp [hq])) acc

/-- The resize re-inserts the dense indices of old slots `0, …, m−1`
(carrying indices `1, …, m`) into the new table: the first lands on slot
1023, every later one wraps — at the old size — down to slots `0, 1, …`. -/
theorem resize_fold_mid : ∀ m, m ≤ 716 →
    (List.range m).foldl (resizeStep hashConst1023 (stateA 717))
      (some (List.replicate 2048 kHashSlotEmpty)) =
      some ((List.range 2048).map (slotFunMid m)) := by
  intro m
  induction m with
  | zero =>
    intro _
    rw [List.range_zero, List.foldl_nil]
    have h2 : (List.range 2048).map (slotFunMid 0) =
        (List.range 2048).map (fun _ => kHashSlotEmpty) := by
      apply List.map_congr_left
      intro i _
      exact slotFunMid_empty 0 i (by omega) (fun _ => rfl)
    rw [h2, List.map_const', List.length_range]
  | succ m ih =>
    intro hm
    rw [List.range_succ, List.foldl_append, ih (by omega), List.foldl_cons,
      List.foldl_nil]
    have hoccm : slotAt (stateA 717) m = Int.ofNat (m + 1) := by
      rw [slotAt_stateA 717 m (by omega), slotFunA, if_pos (by omega)]
    have hnem : ¬ Int.ofNat (m + 1) = kHashSlotEmpty :=
      kHashSlotEmpty_ne_ofNat (m + 1) (by omega)
    by_cases hm0 : m = 0
    · subst hm0
      have hpr : probeEmptyLoop ((List.range 2048).map (slotFunMid 0))
          (stateA 717).hashTableSize ((stateA 717).hashTableSize * 2 + 1)
          (hashMask (hashConst1023
            (dictGet (stateA 717) (Int.ofNat 1))) ((stateA 717).hashTableSize * 2)) =
          some 1023 := by
        show probeEmptyLoop _ 1024 2049 (hashMask 1023 2048) = some 1023
        rw [hashMask_1023_2048]
        apply probeEmptyLoop_scan _ 1024 1023 (by intro j1 hj1; omega)
          (by rw [midGetD, if_pos (by omega),
                slotFunMid_empty 0 1023 (by omega) (fun _ => rfl)])
          2049 1023 le_rfl (by omega)
        intro j hj1 hj2; omega
      rw [resizeStep_some_occupied hashConst1023 (stateA 717) _ 0 1023
        (Int.ofNat 1) hoccm hnem hpr]
      have hset : ((List.range 2048).map (slotFunMid 0)).set 1023 (Int.ofNat 1) =
          (List.range 2048).map (slotFunMid 1) := by
        rw [set_range_map 2048 1023 _ _ (by omega)]
        apply List.map_congr_left
        intro i hi
        simp only [List.mem_range] at hi
        by_cases h : i = 1023
        · subst h
          rw [if_pos rfl, slotFunMid_1023 1 (by omega) (by omega)]
        · rw [if_neg h,
            slotFunMid_empty 0 i (by omega) (fun _ => rfl),
            slotFunMid_empty 1 i (by omega) (fun hc => absurd hc h)]
      rw [hset]
    · have hm1 : 1 ≤ m := by omega
      have hpr : probeEmptyLoop ((List.range 2048).map (slotFunMid m))
          (stateA 717).hashTableSize ((stateA 717).hashTableSize * 2 + 1)
          (hashMask (hashConst1023
            (dictGet (stateA 717) (Int.ofNat (m + 1)))) ((stateA 717).hashTableSize * 2)) =
          some (m - 1) := by
        show probeEmptyLoop _ 1024 (2048 + 1) (hashMask 1023 2048) = some (m - 1)
        rw [hashMask_1023_2048]
        have hw : ((List.range 2048).map (slotFunMid m)).getD 1023 kHashSlotEmpty ≠
            kHashSlotEmpty := by
          rw [midGetD, if_pos (by omega), slotFunMid_1023 m hm1 (by omega)]
          exact kHashSlotEmpty_ne_ofNat 1 (by omega)
        rw [probeEmptyLoop_step_wrap _ 1024 2048 1023 rfl hw]
        apply probeEmptyLoop_scan _ 1024 (m - 1) (by intro j1 hj1; omega)
          (by rw [midGetD, if_pos (by omega),
                slotFunMid_empty m (m - 1) (by omega) (by omega)])
          2048 0 (by omega) (by omega)
        intro j hj1 hj2
        rw [midGetD, if_pos (by omega), slotFunMid_occ m j (by omega)]
        exact kHashSlotEmpty_ne_ofNat (j + 2) (by omega)
      rw [resizeStep_some_occupied hashConst1023 (stateA 717) _ m (m - 1)
        (Int.ofNat (m + 1)) hoccm hnem hpr]
      have hset : ((List.range 2048).map (slotFunMid m)).set (m - 1)
          (Int.ofNat (m + 1)) = (List.range 2048).map (slotFunMid (m + 1)) := by
        rw [set_range_map 2048 (m - 1) _ _ (by omega)]
        apply List.map_congr_left
        intro i hi
        simp only [List.mem_range] at hi
        by_cases h : i = m - 1
        · subst h
          rw [if_pos rfl, slotFunMid_occ (m + 1) (m - 1) (by omega)]
          congr 1
          omega
        · rw [if_neg h]
          by_cases h2 : i + 2 ≤ m
          · rw [slotFunMid_occ m i h2, slotFunMid_occ (m + 1) i (by omega)]
          · by_cases h3 : i = 1023
            · subst h3
              rw [slotFunMid_1023 m hm1 (by omega),
                slotFunMid_1023 (m + 1) (by omega) (by omega)]
            · rw [slotFunMid_empty m i h2 (fun hc => absurd hc h3),
                slotFunMid_empty (m + 1) i (by omega) (fun hc => absurd hc h3)]
      rw [hset]

/-- The final old slot 1023 (dense index 0) is re-inserted at slot 715. -/
theorem resize_fold_last :
    resizeStep hashConst1023 (stateA 717)
      (some ((List.range 2048).map (slotFunMid 716))) 1023 =
      some ((List.range 2048).map slotFunB) := by
  have hocc : slotAt (stateA 717) 1023 = Int.ofNat 0 := by
    rw [slotAt_stateA 717 1023 (by omega), slotFunA, if_neg (by omega),
      if_pos rfl]; rfl
  have hne : ¬ Int.ofNat 0 = kHashSlotEmpty := kHashSlotEmpty_ne_ofNat 0 (by omega)
  have hpr : probeEmptyLoop ((List.range 2048).map (slotFunMid 716))
      (stateA 717).hashTableSize ((stateA 717).hashTableSize * 2 + 1)
      (hashMask (hashConst1023
        (dictGet (stateA 717) (Int.ofNat 0))) ((stateA 717).hashTableSize * 2)) =
      some 715 := by
    show probeEmptyLoop _ 1024 (2048 + 1) (hashMask 1023 2048) = some 715
    rw [hashMask_1023_2048]
    have hw : ((List.range 2048).map (slotFunMid 716)).getD 1023 kHashSlotEmpty ≠
        kHashSlotEmpty := by
      rw [midGetD, if_pos (by omega), slotFunMid_1023 716 (by omega) (by omega)]
      exact kHashSlotEmpty_ne_ofNat 1 (by omega)
    rw [probeEmptyLoop_step_wrap _ 1024 2048 1023 rfl hw]
    apply probeEmptyLoop_scan _ 1024 715 (by intro j1 hj1; omega)
      (by rw [midGetD, if_pos (by omega),
            slotFunMid_empty 716 715 (by omega) (by omega)])
      2048 0 (by omega) (by omega)
    intro j hj1 hj2
    rw [midGetD, if_pos (by omega), slotFunMid_occ 716 j (by omega)]
    exact kHashSlotEmpty_ne_ofNat (j + 2) (by omega)
  rw [resizeStep_some_occupied hashConst1023 (stateA 717) _ 1023 715
    (Int.ofNat 0) hocc hne hpr]
  have hset : ((List.range 2048).map (slotFunMid 716)).set 715 (Int.ofNat 0) =
      (List.range 2048).map slotFunB := by
    rw [set_range_map 2048 715 _ _ (by omega)]
    apply List.map_congr_left
    intro i hi
    simp only [List.mem_range] at hi
    by_cases h : i = 715
    · subst h
      rw [if_pos rfl, slotFunB_715]
    · rw [if_neg h]
      by_cases h2 : i + 2 ≤ 716
      · rw [slotFunMid_occ 716 i h2, slotFunB_occ i h2]
      · by_cases h3 : i = 1023
        · subst h3
          rw [slotFunMid_1023 716 (by omega) (by omega), slotFunB_1023]
        · rw [slotFunMid_empty 716 i h2 (fun hc => absurd hc h3),
            slotFunB_empty i h2 h h3]
  rw [hset]

/-- `DoubleTableSize` on the state holding the 717 distinct values: the
closed-form resized table. -/
theorem doubleTableSize_stateA717 :
    doubleTableSize hashConst1023 (stateA 717) = some stateB := by
  rw [doubleTableSize]
  have hsplit : List.range (stateA 717).hashTableSize =
      (List.range 716 ++ (List.range 307).map (fun x => 716 + x)) ++ [1023] := by
    show List.range 1024 = _
    decide
  rw [hsplit, List.foldl_append, List.foldl_append]
  have h1 : (List.range 716).foldl (resizeStep hashConst1023 (stateA 717))
      (some (List.replicate ((stateA 717).hashTableSize * 2) kHashSlotEmpty)) =
      some ((List.range 2048).map (slotFunMid 716)) := by
    show (List.range 716).foldl _ (some (List.replicate 2048 kHashSlotEmpty)) = _
    exact resize_fold_mid 716 le_rfl
  rw [h1]
  have h2 : ((List.range 307).map (fun x => 716 + x)).foldl
      (resizeStep hashConst1023 (stateA 717))
      (some ((List.range 2048).map (slotFunMid 716))) =
      some ((List.range 2048).map (slotFunMid 716)) := by
    apply resize_fold_skip
    intro p hp
    simp only [List.mem_map, List.mem_range] at hp
    obtain ⟨x, hx, rfl⟩ := hp
    rw [slotAt_stateA 717 (716 + x) (by omega), slotFunA, if_neg (by omega),
      if_neg (by omega)]
  rw [h2, List.foldl_cons, List.foldl_nil, resize_fold_last]
  rfl

/-! ### The post-resize state -/

theorem stateB_slots_eq : stateB.hashSlots = (List.range 2048).map slotFunB := rfl

theorem slotAt_stateB (j : Nat) (hj : j < 2048) : slotAt stateB j = slotFunB j := by
  rw [slotAt, stateB_slots_eq, getD_range_map, if_pos hj]

theorem dictGet_stateB (m : Nat) :
    dictGet stateB (Int.ofNat m) = if m < 717 then Int.ofNat m else 0 := by
  show ((List.range 717).map Int.ofNat).getD (Int.ofNat m).toNat 0 = _
  rw [show (Int.ofNat m).toNat = m from rfl, getD_range_map]

theorem stateB_dictLength : stateB.dictValues.length = 717 := by
  simp [stateB]

/-- The post-resize probe for any value other than `1` = `dict[1]` runs past
slot 1023 (which now holds dense index 1) straight into the empty upper half:
slot 1024 is empty, so the probe reports "not found". -/
theorem hashProbe_stateB (v : Int) (hv : dictGet stateB (Int.ofNat 1) ≠ v) :
    hashProbe hashConst1023 stateB v = some (1024, kHashSlotEmpty) := by
  have hempty : slotAt stateB 1024 = kHashSlotEmpty := by
    rw [slotAt_stateB 1024 (by omega), slotFunB_empty 1024 (by omega)
      (by omega) (by omega)]
  have hscan : probeLoop stateB v 2049 1023 =
      some (1024, slotAt stateB 1024) := by
    apply probeLoop_scan stateB v 1024 (by show (1024 : Nat) < 2048; omega)
      (by rw [hempty]; simp) 2049 1023 (by omega) (by omega)
    intro j hj1 hj2
    have hj : j = 1023 := by omega
    subst hj
    rw [slotAt_stateB 1023 (by omega), slotFunB_1023]
    exact ⟨kHashSlotEmpty_ne_ofNat 1 (by omega), hv⟩
  rw [hempty] at hscan
  rw [hashProbe]
  show probeLoop _ _ (2048 + 1) (hashMask 1023 2048) = _
  rw [hashMask_1023_2048]
  exact hscan

/-! ### Chaining `Append` over a whole column -/

theorem appendArray_nil (h : Int → Nat) (s : HashTableState) :
    appendArray h s [] = some (s, []) := rfl

theorem appendArray_cons_valid_some (h : Int → Nat) (s s1 s2 : HashTableState)
    (v idx : Int) (rest : List (Bool × Int)) (out : List (Option Int))
    (hone : appendOne h s v = some (s1, idx))
    (hrest : appendArray h s1 rest = some (s2, out)) :
    appendArray h s ((true, v) :: rest) = some (s2, some idx :: out) := by
  simp [appendArray, hone, hrest]

theorem appendArray_cons_valid_none1 (h : Int → Nat) (s : HashTableState)
    (v : Int) (rest : List (Bool × Int)) (hone : appendOne h s v = none) :
    appendArray h s ((true, v) :: rest) = none := by
  simp [appendArray, hone]

theorem appendArray_cons_valid_none2 (h : Int → Nat) (s s1 : HashTableState)
    (v idx : Int) (rest : List (Bool × Int))
    (hone : appendOne h s v = some (s1, idx))
    (hrest : appendArray h s1 rest = none) :
    appendArray h s ((true, v) :: rest) = none := by
  simp [appendArray, hone, hrest]

theorem appendArray_cons_null_some (h : Int → Nat) (s s2 : HashTableState)
    (v : Int) (rest : List (Bool × Int)) (out : List (Option Int))
    (hrest : appendArray h s rest = some (s2, out)) :
    appendArray h s ((false, v) :: rest) = some (s2, none :: out) := by
  simp [appendArray, hrest]

theorem appendArray_cons_null_none (h : Int → Nat) (s : HashTableState)
    (v : Int) (rest : List (Bool × Int))
    (hrest : appendArray h s rest = none) :
    appendArray h s ((false, v) :: rest) = none := by
  simp [appendArray, hrest]

theorem appendArray_append_some (h : Int → Nat) (s s1 s2 : HashTableState)
    (l1 l2 : List (Bool × Int)) (o1 o2 : List (Option Int))
    (h1 : appendArray h s l1 = some (s1, o1))
    (h2 : appendArray h s1 l2 = some (s2, o2)) :
    appendArray h s (l1 ++ l2) = some (s2, o1 ++ o2) := by
  induction l1 generalizing s o1 with
  | nil =>
    rw [appendArray_nil] at h1
    simp only [Option.some.injEq, Prod.mk.injEq] at h1
    obtain ⟨rfl, rfl⟩ := h1
    simpa using h2
  | cons e l1 ih =>
    obtain ⟨valid, v⟩ := e
    by_cases hval : valid
    · subst hval
      cases hone : appendOne h s v with
      | none => rw [appendArray_cons_valid_none1 h s v l1 hone] at h1; cases h1
      | some p =>
        obtain ⟨sm, idx⟩ := p
        cases hrest : appendArray h sm l1 with
        | none => rw [appendArray_cons_valid_none2 h s sm v idx l1 hone hrest] at h1; cases h1
        | some q =>
          obtain ⟨sr, orr⟩ := q
          rw [appendArray_cons_valid_some h s sm sr v idx l1 orr hone hrest] at h1
          simp only [Option.some.injEq, Prod.mk.injEq] at h1
          obtain ⟨rfl, rfl⟩ := h1
          rw [List.cons_append]
          rw [appendArray_cons_valid_some h s sm s2 v idx (l1 ++ l2) (orr ++ o2)
            hone (ih sm orr hrest)]
          rfl
    · have hval2 : valid = false := by revert hval; cases valid <;> simp
      subst hval2
      cases hrest : appendArray h s l1 with
      | none => rw [appendArray_cons_null_none h s v l1 hrest] at h1; cases h1
      | some q =>
        obtain ⟨sr, orr⟩ := q
        rw [appendArray_cons_null_some h s sr v l1 orr hrest] at h1
        simp only [Option.some.injEq, Prod.mk.injEq] at h1
        obtain ⟨rfl, rfl⟩ := h1
        rw [List.cons_append]
        rw [appendArray_cons_null_some h s s2 v (l1 ++ l2) (orr ++ o2)
          (ih s orr hrest)]
        rfl

theorem appendArray_single (h : Int → Nat) (s s1 : HashTableState) (v idx : Int)
    (hone : appendOne h s v = some (s1, idx)) :
    appendArray h s [(true, v)] = some (s1, [some idx]) :=
  appendArray_cons_valid_some h s s1 s1 v idx [] [] hone (appendArray_nil h s1)

/-- The first `k ≤ 716` values land without any resize: the closed form. -/
theorem appendArray_prefixVals : ∀ k, 1 ≤ k → k ≤ 716 →
    appendArray hashConst1023 (initState 1024) (prefixVals k) =
      some (stateA k, (List.range k).map (fun i => some (Int.ofNat i))) := by
  intro k
  induction k with
  | zero => intro h; omega
  | succ k ih =>
    intro _ hk
    by_cases hk0 : k = 0
    · subst hk0
      have h1 : appendArray hashConst1023 (initState 1024) [(true, Int.ofNat 0)] =
          some (stateA 1, [some (Int.ofNat 0)]) :=
        appendArray_single _ _ _ _ _ appendOne_init
      have h0 : prefixVals 1 = [(true, Int.ofNat 0)] := by decide
      rw [h0, h1]
      rfl
    · have hsplit : prefixVals (k + 1) = prefixVals k ++ [(true, Int.ofNat k)] := by
        rw [prefixVals, prefixVals, List.range_succ, List.map_append]
        rfl
      rw [hsplit]
      rw [appendArray_append_some hashConst1023 (initState 1024) (stateA k)
        (stateA (k + 1)) (prefixVals k) [(true, Int.ofNat k)]
        ((List.range k).map (fun i => some (Int.ofNat i))) [some (Int.ofNat k)]
        (ih (by omega) (by omega))
        (appendArray_single _ _ _ _ _ (appendOne_stateA k (by omega) (by omega)))]
      rw [List.range_succ, List.map_append]
      rfl

/-- The 717th distinct value triggers the resize. -/
theorem appendOne_state716 :
    appendOne hashConst1023 (stateA 716) (Int.ofNat 716) =
      some (stateB, Int.ofNat 716) := by
  have hpr : hashProbe hashConst1023 (stateA 716) (Int.ofNat 716) =
      some (715, kHashSlotEmpty) := hashProbe_stateA 716 (by omega) le_rfl
  have hload : loadExceeded ((stateA 716).dictValues.length + 1)
      (stateA 716).hashTableSize = true := by
    rw [stateA_dictLength, stateA_size]
    decide
  have hset : (stateA 716).hashSlots.set 715
      (Int.ofNat (stateA 716).dictValues.length) =
      (List.range 1024).map (slotFunA 717) := by
    rw [stateA_dictLength]
    exact stateA_set 716 (by omega) (by omega)
  have hstruct :
      ({ hashSlots := (stateA 716).hashSlots.set 715
           (Int.ofNat (stateA 716).dictValues.length),
         hashTableSize := (stateA 716).hashTableSize,
         dictValues := (stateA 716).dictValues ++ [Int.ofNat 716] } :
         HashTableState) = stateA 717 := by
    rw [hset, stateA_dict_append 716]
    rfl
  have h := appendOne_insert_resize hashConst1023 (stateA 716) (Int.ofNat 716)
    715 stateB hpr hload (by rw [hstruct]; exact doubleTableSize_stateA717)
  rw [h, stateA_dictLength]

/-- After the resize, a fresh occurrence of the already-present value `0` is
treated as unseen and re-inserted at slot 1024 with dense index 717. -/
theorem appendOne_stateB_0 :
    appendOne hashConst1023 stateB (Int.ofNat 0) = some (stateC, Int.ofNat 717) := by
  have hpr : hashProbe hashConst1023 stateB (Int.ofNat 0) =
      some (1024, kHashSlotEmpty) := by
    apply hashProbe_stateB
    rw [dictGet_stateB, if_pos (by omega)]
    intro hc
    have := Int.ofNat.inj hc
    omega
  have h := appendOne_insert hashConst1023 stateB (Int.ofNat 0) 1024 hpr
    (by rw [stateB_dictLength]; decide)
  rw [h, stateB_dictLength]
  rfl

/-- Likewise for a repeat of value `716` immediately after its own insert. -/
theorem appendOne_stateB_716 :
    appendOne hashConst1023 stateB (Int.ofNat 716) = some (stateD, Int.ofNat 717) := by
  have hpr : hashProbe hashConst1023 stateB (Int.ofNat 716) =
      some (1024, kHashSlotEmpty) := by
    apply hashProbe_stateB
    rw [dictGet_stateB, if_pos (by omega)]
    intro hc
    have := Int.ofNat.inj hc
    omega
  have h := appendOne_insert hashConst1023 stateB (Int.ofNat 716) 1024 hpr
    (by rw [stateB_dictLength]; decide)
  rw [h, stateB_dictLength]
  rfl

/-- The full 718-element run: the duplicate dictionary. -/
theorem appendArray_xBug :
    appendArray hashConst1023 (initState 1024) xBug =
      some (stateC, (List.range 717).map (fun i => some (Int.ofNat i)) ++
        [some (Int.ofNat 717)]) := by
  have h716 : appendArray hashConst1023 (initState 1024) (prefixVals 717) =
      some (stateB, (List.range 717).map (fun i => some (Int.ofNat i))) := by
    have hsplit : prefixVals 717 = prefixVals 716 ++ [(true, Int.ofNat 716)] := by
      rw [prefixVals, prefixVals, List.range_succ, List.map_append]
      rfl
    rw [hsplit]
    rw [appendArray_append_some hashConst1023 (initState 1024) (stateA 716) stateB
      (prefixVals 716) [(true, Int.ofNat 716)]
      ((List.range 716).map (fun i => some (Int.ofNat i))) [some (Int.ofNat 716)]
      (appendArray_prefixVals 716 (by omega) (by omega))
      (appendArray_single _ _ _ _ _ appendOne_state716)]
    rw [List.range_succ, List.map_append]
    rfl
  have hx : xBug = prefixVals 717 ++ [(true, Int.ofNat 0)] := rfl
  rw [hx]
  exact appendArray_append_some hashConst1023 (initState 1024) stateB stateC
    (prefixVals 717) [(true, Int.ofNat 0)]
    ((List.range 717).map (fun i => some (Int.ofNat i))) [some (Int.ofNat 717)]
    h716 (appendArray_single _ _ _ _ _ appendOne_stateB_0)

/-! ### getD helpers -/

theorem getD_set_ne {α : Type} (l : List α) (i j : Nat) (x d : α) (hij : i ≠ j) :
    (l.set i x).getD j d = l.getD j d := by
  rw [List.getD_eq_getElem?_getD, List.getD_eq_getElem?_getD,
    List.getElem?_set_ne hij]

theorem getD_set_self {α : Type} (l : List α) (j : Nat) (x d : α)
    (hj : j < l.length) : (l.set j x).getD j d = x := by
  rw [List.getD_eq_getElem?_getD, List.getElem?_set_self hj]
  rfl

theorem getD_append_left {α : Type} (l l' : List α) (n : Nat) (d : α)
    (hn : n < l.length) : (l ++ l').getD n d = l.getD n d :=
  List.getD_append l l' d n hn

theorem getD_append_length {α : Type} (l : List α) (v d : α) :
    (l ++ [v]).getD l.length d = v := by
  rw [List.getD_eq_getElem?_getD, List.getElem?_append]
  · simp
  -- older signature may need the side condition inline; handled by simp

/-! ### Probe determinism after an insert -/

theorem probeLoop_content (s : HashTableState) (v : Int) :
    ∀ fuel a j c, probeLoop s v fuel a = some (j, c) → c = slotAt s j := by
  intro fuel
  induction fuel with
  | zero => intro a j c h; cases h
  | succ fuel ih =>
    intro a j c h
    by_cases hcond : slotAt s a ≠ kHashSlotEmpty ∧ dictGet s (slotAt s a) ≠ v
    · rw [probeLoop] at h
      rw [if_pos hcond] at h
      exact ih _ j c h
    · rw [probeLoop] at h
      rw [if_neg hcond] at h
      simp only [Option.some.injEq, Prod.mk.injEq] at h
      obtain ⟨rfl, rfl⟩ := h
      rfl

/-- After inserting `v` at the empty slot the probe found, the same probe run
finds `v` there: the path is unchanged (all its slots were occupied by other
values, whose dense indices and dictionary entries are untouched), and the
stop slot now holds the fresh dense index. -/
theorem probeLoop_after_insert (s : HashTableState) (v : Int) (jstop : Nat)
    (hlen : s.hashSlots.length = s.hashTableSize)
    (hslots : ∀ j, j < s.hashTableSize → slotAt s j ≠ kHashSlotEmpty →
      0 ≤ slotAt s j ∧ (slotAt s j).toNat < s.dictValues.length)
    (hstopE : slotAt s jstop = kHashSlotEmpty) (hjs : jstop < s.hashTableSize) :
    ∀ fuel a, a < s.hashTableSize →
    probeLoop s v fuel a = some (jstop, kHashSlotEmpty) →
    probeLoop
      { hashSlots := s.hashSlots.set jstop (Int.ofNat s.dictValues.length),
        hashTableSize := s.hashTableSize,
        dictValues := s.dictValues ++ [v] } v fuel a =
      some (jstop, Int.ofNat s.dictValues.length) := by
  set s1 : HashTableState :=
    { hashSlots := s.hashSlots.set jstop (Int.ofNat s.dictValues.length),
      hashTableSize := s.hashTableSize,
      dictValues := s.dictValues ++ [v] } with hs1
  have hsize1 : s1.hashTableSize = s.hashTableSize := rfl
  have hstop1 : slotAt s1 jstop = Int.ofNat s.dictValues.length := by
    rw [slotAt]
    show (s.hashSlots.set jstop _).getD jstop kHashSlotEmpty = _
    rw [getD_set_self]
    omega
  have hdict1 : dictGet s1 (Int.ofNat s.dictValues.length) = v := by
    rw [dictGet]
    show (s.dictValues ++ [v]).getD (Int.ofNat s.dictValues.length).toNat 0 = v
    rw [show (Int.ofNat s.dictValues.length).toNat = s.dictValues.length from rfl]
    exact getD_append_length s.dictValues v 0
  intro fuel
  induction fuel with
  | zero => intro a _ h; cases h
  | succ fuel ih =>
    intro a ha h
    by_cases hcond : slotAt s a ≠ kHashSlotEmpty ∧ dictGet s (slotAt s a) ≠ v
    · have hane : a ≠ jstop := by
        intro hcontra
        rw [hcontra, hstopE] at hcond
        exact hcond.1 rfl
      have hslot1a : slotAt s1 a = slotAt s a := by
        rw [slotAt, slotAt]
        show (s.hashSlots.set jstop _).getD a kHashSlotEmpty = _
        rw [getD_set_ne _ _ _ _ _ (fun hc => hane hc.symm)]
      have hd1a : dictGet s1 (slotAt s a) = dictGet s (slotAt s a) := by
        obtain ⟨hpos, hlt⟩ := hslots a ha hcond.1
        rw [dictGet, dictGet]
        show (s.dictValues ++ [v]).getD (slotAt s a).toNat 0 = _
        exact getD_append_left _ _ _ _ hlt
      rw [probeLoop] at h
      rw [if_pos hcond] at h
      rw [probeLoop]
      rw [if_pos (by rw [hslot1a, hd1a]; exact hcond)]
      rw [hsize1]
      have hnext : (if a + 1 = s.hashTableSize then 0 else a + 1) <
          s.hashTableSize := by
        by_cases hc : a + 1 = s.hashTableSize
        · rw [if_pos hc]; omega
        · rw [if_neg hc]; omega
      exact ih _ hnext h
    · rw [probeLoop] at h
      rw [if_neg hcond] at h
      simp only [Option.some.injEq, Prod.mk.injEq] at h
      obtain ⟨rfl, -⟩ := h
      rw [probeLoop]
      rw [if_neg (by
        intro hc
        exact hc.2 (by rw [hstop1, hdict1]))]
      rw [hstop1]

theorem doubleTableSize_size (h : Int → Nat) (s s2 : HashTableState)
    (hd : doubleTableSize h s = some s2) :
    s2.hashTableSize = s.hashTableSize * 2 := by
  rw [doubleTableSize] at hd
  cases hfold : (List.range s.hashTableSize).foldl (resizeStep h s)
      (some (List.replicate (s.hashTableSize * 2) kHashSlotEmpty)) with
  | none => rw [hfold] at hd; cases hd
  | some ns =>
    rw [hfold] at hd
    simp only [Option.some.injEq] at hd
    rw [← hd]

/-- The second `get_or_insert` of the same value, when the first did not
resize: found-case determinism, or the freshly inserted slot is re-found. -/
theorem getOrInsert_idempotent (h : Int → Nat) (s s1 : HashTableState)
    (v idx : Int) (hwf : SlotsWF s)
    (hcall : appendOne h s v = some (s1, idx))
    (hnores : s1.hashTableSize = s.hashTableSize) :
    appendOne h s1 v = some (s1, idx) := by
  obtain ⟨hpos, hlen, hsmall, hslots⟩ := hwf
  rw [appendOne] at hcall
  cases hpr : hashProbe h s v with
  | none => rw [hpr] at hcall; cases hcall
  | some p =>
    obtain ⟨j, slot⟩ := p
    rw [hpr] at hcall
    dsimp only at hcall
    by_cases hslot : slot = kHashSlotEmpty
    · subst hslot
      rw [if_pos rfl] at hcall
      have hlen2 : (s.dictValues ++ [v]).length = s.dictValues.length + 1 := by
        simp
      cases hload : loadExceeded (s.dictValues.length + 1) s.hashTableSize with
      | true =>
        rw [hlen2, hload] at hcall
        simp only [if_true] at hcall
        cases hdbl : doubleTableSize h
            { hashSlots := s.hashSlots.set j (Int.ofNat s.dictValues.length),
              hashTableSize := s.hashTableSize,
              dictValues := s.dictValues ++ [v] } with
        | none => rw [hdbl] at hcall; cases hcall
        | some s2 =>
          rw [hdbl] at hcall
          simp only [Option.some.injEq, Prod.mk.injEq] at hcall
          obtain ⟨rfl, -⟩ := hcall
          have hsz := doubleTableSize_size h
            { hashSlots := s.hashSlots.set j (Int.ofNat s.dictValues.length),
              hashTableSize := s.hashTableSize,
              dictValues := s.dictValues ++ [v] } s2 hdbl
          have hsz2 : s2.hashTableSize = s.hashTableSize * 2 := hsz
          rw [hnores] at hsz2
          omega
      | false =>
        rw [hlen2, hload] at hcall
        simp only [Bool.false_eq_true, if_false, Option.some.injEq,
          Prod.mk.injEq] at hcall
        obtain ⟨rfl, rfl⟩ := hcall
        -- the stop slot of the successful probe is empty and in range
        have hj : j < s.hashTableSize := by
          -- probe positions stay below the table size
          have hstart : hashMask (h v) s.hashTableSize < s.hashTableSize := by
            rw [hashMask]
            have := Nat.and_le_right (n := h v) (m := s.hashTableSize - 1)
            omega
          -- j is a probe result; derive the bound by a small auxiliary scan
          revert hpr
          rw [hashProbe]
          generalize hashMask (h v) s.hashTableSize = a at hstart
          generalize s.hashTableSize + 1 = fuel
          induction fuel generalizing a with
          | zero => intro hc; cases hc
          | succ fuel ih =>
            intro hpr
            by_cases hcond : slotAt s a ≠ kHashSlotEmpty ∧
                dictGet s (slotAt s a) ≠ v
            · rw [probeLoop, if_pos hcond] at hpr
              apply ih _ _ hpr
              by_cases hc : a + 1 = s.hashTableSize
              · rw [if_pos hc]; omega
              · rw [if_neg hc]; omega
            · rw [probeLoop, if_neg hcond] at hpr
              simp only [Option.some.injEq, Prod.mk.injEq] at hpr
              obtain ⟨rfl, -⟩ := hpr
              exact hstart
        have hstopE : slotAt s j = kHashSlotEmpty := by
          have := probeLoop_content s v (s.hashTableSize + 1)
            (hashMask (h v) s.hashTableSize) j kHashSlotEmpty hpr
          exact this.symm
        have hprobe1 : hashProbe h
            { hashSlots := s.hashSlots.set j (Int.ofNat s.dictValues.length),
              hashTableSize := s.hashTableSize,
              dictValues := s.dictValues ++ [v] } v =
            some (j, Int.ofNat s.dictValues.length) := by
          rw [hashProbe]
          show probeLoop _ v (s.hashTableSize + 1)
            (hashMask (h v) s.hashTableSize) = _
          apply probeLoop_after_insert s v j hlen hslots hstopE hj
          · rw [hashMask]
            have := Nat.and_le_right (n := h v) (m := s.hashTableSize - 1)
            omega
          · exact hpr
        exact appendOne_found h _ v j (Int.ofNat s.dictValues.length) hprobe1
          (kHashSlotEmpty_ne_ofNat _ hsmall)
    · rw [if_neg hslot] at hcall
      simp only [Option.some.injEq, Prod.mk.injEq] at hcall
      obtain ⟨rfl, rfl⟩ := hcall
      exact appendOne_found h s v j slot hpr hslot

/-! ### Claim C1 -/

/-- **C1.** "For every column X of a supported primitive type, unique(X)
returns exactly the distinct non-null values of X in order of first
occurrence, and dictionary_encode(X) returns [the matching index array]."
The code violates this: with a deterministic hash colliding at slot 1023 (the
spec requires of the external hash only determinism) the 718-element column
`0, 1, …, 716, 0` crosses the `0.7 · 1024` load boundary; `DoubleTableSize`
wraps its probe at the *old* table size (hash.cc:347), the final occurrence
of value `0` probes past slot 1023 into the untouched upper half, hits the
empty slot 1024, and is re-inserted: `unique` returns `0, …, 716, 0` — value
`0` twice, not the first-occurrence distinct values — and
`dictionary_encode` assigns it index 717 instead of 0. -/
theorem c1_unique_duplicate_after_resize :
    uniqueRun hashConst1023 xBug = some dupDict ∧
    dictEncodeRun hashConst1023 xBug =
      some (dupDict, (List.range 717).map (fun i => some (Int.ofNat i)) ++
        [some (Int.ofNat 717)]) ∧
    ¬ dupDict.Nodup := by
  refine ⟨?_, ?_, ?_⟩
  · rw [uniqueRun, kInitialHashTableSize, appendArray_xBug, Option.map_some']
    rfl
  · rw [dictEncodeRun, kInitialHashTableSize, appendArray_xBug, Option.map_some']
    rfl
  · intro hnd
    rw [show dupDict = (List.range 717).map Int.ofNat ++ [0] from rfl,
      List.nodup_append] at hnd
    obtain ⟨-, -, hdisj⟩ := hnd
    exact hdisj (List.mem_map.mpr ⟨0, List.mem_range.mpr (by omega), rfl⟩)
      (List.mem_singleton.mpr rfl)

/-! ### Claim C3 -/

/-- **C3.** "Whenever the number of distinct memoized values exceeds 0.7
times the hash-table capacity, the table doubles its capacity and rehashes
every occupied slot against the new mask, and afterwards every previously
inserted value is still found by get_or_insert at its original dense index."
The doubling and rehashing happen, but the post-resize guarantee fails in the
code: on the 717-value state with the hash colliding at 1023,
`DoubleTableSize` (wrapping its probe at the *old* size, hash.cc:347) places
value `0` — dense index 0 — at slot 715, yet the subsequent probe for `0`
walks `1023 → 1024` and stops at the *empty* slot 1024: a lookup miss, which
`Append` then turns into a duplicate dense index. -/
theorem c3_resize_lookup_miss :
    doubleTableSize hashConst1023 (stateA 717) = some stateB ∧
    stateB.hashTableSize = 2 * (stateA 717).hashTableSize ∧
    dictGet stateB (Int.ofNat 0) = Int.ofNat 0 ∧
    slotAt stateB 715 = Int.ofNat 0 ∧
    hashProbe hashConst1023 stateB (Int.ofNat 0) = some (1024, kHashSlotEmpty) := by
  refine ⟨doubleTableSize_stateA717, rfl, ?_, ?_, ?_⟩
  · rw [dictGet_stateB, if_pos (by omega)]
  · rw [slotAt_stateB 715 (by omega), slotFunB_715]
  · apply hashProbe_stateB
    rw [dictGet_stateB, if_pos (by omega)]
    intro hc
    have := Int.ofNat.inj hc
    omega

/-! ### Claim C7 -/

/-- **C7 (counterexample).** "For every value v and every memo-table state,
calling get_or_insert(v) twice in succession returns the same dense index
both times, and the second call leaves the number of distinct entries and the
table capacity unchanged."  False at the (reachable) state holding the 716
distinct values `0, …, 715`: the first `get_or_insert(716)` returns dense
index 716 and triggers the resize; the second returns the *fresh* index 717
and grows the entry count to 718, because the post-resize lookup misses. -/
theorem c7_counterexample :
    appendOne hashConst1023 (stateA 716) (Int.ofNat 716) =
      some (stateB, Int.ofNat 716) ∧
    appendOne hashConst1023 stateB (Int.ofNat 716) =
      some (stateD, Int.ofNat 717) ∧
    Int.ofNat 717 ≠ Int.ofNat 716 ∧
    stateB.dictValues.length = 717 ∧
    stateD.dictValues.length = 718 := by
  refine ⟨appendOne_state716, appendOne_stateB_716, ?_, stateB_dictLength, ?_⟩
  · intro hc
    have := Int.ofNat.inj hc
    omega
  · rw [show stateD.dictValues = (List.range 717).map Int.ofNat ++ [716] from rfl]
    simp

/-- **C7 (amended).** `get_or_insert(v)` twice in succession returns the same
dense index both times and the second call leaves the table — hence its
distinct-entry count and capacity — unchanged, *provided the first call did
not trigger a resize* (stated as: it left the capacity unchanged), on any
wellformed memo-table state. -/
theorem c7_get_or_insert_idempotent (h : Int → Nat) (s s1 : HashTableState)
    (v idx : Int) (hwf : SlotsWF s)
    (hcall : appendOne h s v = some (s1, idx))
    (hnores : s1.hashTableSize = s.hashTableSize) :
    appendOne h s1 v = some (s1, idx) :=
  getOrInsert_idempotent h s s1 v idx hwf hcall hnores

/-- Concrete instantiation of the amended C7 theorem: capacity 4, constant
hash 0, inserting the value 5 into the empty table and calling again. -/
theorem c7_get_or_insert_idempotent_witness :
    appendOne (fun _ => 0)
      { hashSlots := [Int.ofNat 0, kHashSlotEmpty, kHashSlotEmpty, kHashSlotEmpty],
        hashTableSize := 4, dictValues := [5] } 5 =
    some ({ hashSlots := [Int.ofNat 0, kHashSlotEmpty, kHashSlotEmpty,
              kHashSlotEmpty],
            hashTableSize := 4, dictValues := [5] }, Int.ofNat 0) := by
  apply c7_get_or_insert_idempotent (fun _ => 0) (initState 4) _ 5 (Int.ofNat 0)
  · decide
  · decide
  · rfl

/-! ### Cast helpers -/

theorem getD_map_lt {A B : Type} (f : A → B) (l : List A) (i : Nat)
    (hi : i < l.length) (d : B) (d0 : A) :
    (l.map f).getD i d = f (l.getD i d0) := by
  rw [List.getD_eq_getElem?_getD, List.getD_eq_getElem?_getD, List.getElem?_map]
  rw [List.getElem?_eq_getElem hi]
  rfl

theorem nullAgree_all (a b : List (Bool × Int)) (hag : NullSlotAgree a b)
    (p : Int → Bool) :
    (a.all fun e => !e.1 || p e.2) = (b.all fun e => !e.1 || p e.2) := by
  induction hag with
  | nil => rfl
  | @cons x y l1 l2 he ht ih =>
    obtain ⟨h1, h2⟩ := he
    rw [List.all_cons, List.all_cons, ih]
    cases hx : x.1 with
    | false => simp [hx, h1.symm.trans hx]
    | true => simp [hx, h1.symm.trans hx, h2 hx]

theorem nullAgree_map (a b : List (Bool × Int)) (hag : NullSlotAgree a b)
    (g : Int → Int) :
    (a.map fun e => (e.1, if e.1 then g e.2 else 0)) =
      (b.map fun e => (e.1, if e.1 then g e.2 else 0)) := by
  induction hag with
  | nil => rfl
  | @cons x y l1 l2 he ht ih =>
    obtain ⟨h1, h2⟩ := he
    rw [List.map_cons, List.map_cons, ih]
    cases hx : x.1 with
    | false => simp [hx, h1.symm.trans hx]
    | true => simp [hx, h1.symm.trans hx, h2 hx]

/-! ### Claim C2 -/

/-- **C2.** Modelled from the spec (the cast kernel is not under src/, only
its tests): for an integer array and a strictly narrower integer target type,
`cast` with `allow_int_overflow = false` fails with `Invalid` exactly when
some non-null element is unrepresentable in the target; on success, casting
the result back to the source type succeeds, yields the same array, and
agrees with the input at every non-null position (with identical validity). -/
theorem c2_int_downcast_safe (src tgt : IntColType) (arr : List (Bool × Int))
    (hnarrow : tgt.bits < src.bits)
    (hsrcok : ∀ e ∈ arr, e.1 = true → src.fits e.2 = true) :
    (castIntSafe tgt arr = none ↔
      ∃ e ∈ arr, e.1 = true ∧ tgt.fits e.2 = false) ∧
    (∀ out, castIntSafe tgt arr = some out →
      castIntSafe src out = some out ∧
      out.length = arr.length ∧
      ∀ i, i < arr.length →
        (out.getD i (true, 0)).1 = (arr.getD i (true, 0)).1 ∧
        ((arr.getD i (true, 0)).1 = true →
          (out.getD i (true, 0)).2 = (arr.getD i (true, 0)).2)) := by
  constructor
  · rw [castIntSafe]
    by_cases hall : arr.all (fun e => !e.1 || tgt.fits e.2)
    · rw [if_pos hall]
      simp only [List.all_eq_true] at hall
      constructor
      · intro hc; cases hc
      · rintro ⟨e, hmem, hval, hfit⟩
        have := hall e hmem
        rw [hval, hfit] at this
        simp at this
    · rw [if_neg hall]
      constructor
      · intro _
        simp only [List.all_eq_true, not_forall] at hall
        obtain ⟨e, hmem, hne⟩ := hall
        refine ⟨e, hmem, ?_, ?_⟩
        · revert hne; cases e.1 <;> simp
        · revert hne; cases tgt.fits e.2 <;> simp
      · intro _; rfl
  · intro out hout
    rw [castIntSafe] at hout
    by_cases hall : arr.all (fun e => !e.1 || tgt.fits e.2)
    · rw [if_pos hall] at hout
      simp only [Option.some.injEq] at hout
      subst hout
      refine ⟨?_, by simp, ?_⟩
      · rw [castIntSafe, if_pos ?hsrcall]
        case hsrcall =>
          simp only [List.all_eq_true]
          intro e' hmem'
          simp only [List.mem_map] at hmem'
          obtain ⟨e, hmem, rfl⟩ := hmem'
          cases hval : e.1 with
          | false => simp [hval]
          | true => simpa [hval] using hsrcok e hmem hval
        congr 1
        rw [List.map_map]
        apply List.map_congr_left
        intro e _
        cases hval : e.1 <;> simp [Function.comp, hval]
      · intro i hi
        rw [getD_map_lt _ arr i hi _ (true, 0)]
        cases hval : (arr.getD i (true, 0)).1 <;> simp [hval]
    · rw [if_neg hall] at hout
      cases hout

/-- Instantiation of C2 on the downcast test vector (int32 to int16 with an
out-of-range value hidden in a null slot): the round-trip of the cast result
succeeds and returns it unchanged. -/
theorem c2_int_downcast_safe_witness :
    castIntSafe { signed := true, bits := 32 }
      [(true, 0), (false, 0), (true, 2000), (true, 1000), (true, 0)] =
    some [(true, 0), (false, 0), (true, 2000), (true, 1000), (true, 0)] := by
  have h := c2_int_downcast_safe { signed := true, bits := 32 }
    { signed := true, bits := 16 }
    [(true, 0), (false, 70000), (true, 2000), (true, 1000), (true, 0)]
    (by decide) (by decide)
  exact (h.2 [(true, 0), (false, 0), (true, 2000), (true, 1000), (true, 0)]
    (by decide)).1

/-! ### Claim C4 -/

/-- **C4.** Modelled from the spec (the cast kernel is not under src/):
timestamp-to-timestamp casts.  When the source unit is coarser, the cast
succeeds for either truncation flag and multiplies each non-null element by
the integer unit ratio; when finer, with `allow_time_truncate = false`
it succeeds iff every non-null element is an exact multiple of the ratio, and
with `allow_time_truncate = true` every non-null output is the truncated
integer division of the input by the ratio (as is every output of a
successful non-truncating cast). -/
theorem c4_timestamp_unit_cast (u v : ColTimeUnit) (arr : List (Bool × Int)) :
    (u.scale < v.scale →
      ∀ tr : Bool, castTimestamp u v tr arr =
        some (arr.map (fun e =>
          (e.1, if e.1 then e.2 * Int.ofNat (v.scale / u.scale) else 0)))) ∧
    (v.scale < u.scale →
      ((castTimestamp u v false arr).isSome ↔
        ∀ e ∈ arr, e.1 = true → e.2 % Int.ofNat (u.scale / v.scale) = 0) ∧
      castTimestamp u v true arr =
        some (arr.map (fun e =>
          (e.1, if e.1 then e.2.tdiv (Int.ofNat (u.scale / v.scale)) else 0))) ∧
      (∀ out, castTimestamp u v false arr = some out →
        out = arr.map (fun e =>
          (e.1, if e.1 then e.2.tdiv (Int.ofNat (u.scale / v.scale)) else 0)))) := by
  constructor
  · intro hcoarse tr
    rw [castTimestamp, if_pos (by omega)]
  · intro hfine
    have hnotle : ¬ u.scale ≤ v.scale := by omega
    refine ⟨?_, ?_, ?_⟩
    · rw [castTimestamp, if_neg hnotle, if_neg (by simp)]
      by_cases hall : arr.all (fun e => !e.1 || (e.2 % Int.ofNat (u.scale / v.scale) == 0))
      · rw [if_pos hall]
        simp only [List.all_eq_true] at hall
        simp only [Option.isSome_some, true_iff]
        intro e hmem hval
        have := hall e hmem
        rw [hval] at this
        simpa using this
      · rw [if_neg hall]
        simp only [Option.isSome_none, Bool.false_eq_true, false_iff]
        intro hforall
        apply hall
        simp only [List.all_eq_true]
        intro e hmem
        cases hval : e.1 with
        | false => simp [hval]
        | true =>
          simp only [hval, Bool.not_true, Bool.false_or, beq_iff_eq]
          exact hforall e hmem hval
    · rw [castTimestamp, if_neg hnotle, if_pos rfl]
    · intro out hout
      rw [castTimestamp, if_neg hnotle, if_neg (by simp)] at hout
      by_cases hall : arr.all (fun e => !e.1 || (e.2 % Int.ofNat (u.scale / v.scale) == 0))
      · rw [if_pos hall] at hout
        simp only [Option.some.injEq] at hout
        exact hout.symm
      · rw [if_neg hall] at hout
        cases hout

/-- Instantiation of C4 on the test vector of `TimestampToTimestamp`:
milliseconds to seconds with truncation allowed. -/
theorem c4_timestamp_unit_cast_witness :
    castTimestamp ColTimeUnit.milli ColTimeUnit.second true
      [(true, 0), (false, 99), (true, 100123), (true, 200456), (true, 1123), (true, 2456)] =
    some [(true, 0), (false, 0), (true, 100), (true, 200), (true, 1), (true, 2)] := by
  have h := (c4_timestamp_unit_cast ColTimeUnit.milli ColTimeUnit.second
    [(true, 0), (false, 99), (true, 100123), (true, 200456), (true, 1123), (true, 2456)]).2
    (by decide)
  rw [h.2.1]
  decide

/-! ### Claim C6 -/

/-- **C6.** Modelled from the spec (the cast kernel is not under src/): the
result of a checked cast — success or `Invalid`, and every produced byte —
is identical for any two inputs of the same length and validity that agree
on all valid values: the value bytes stored in null slots are never
consulted by the overflow or truncation checks, nor by the output. -/
theorem c6_cast_ignores_null_slot_bytes (tgt : IntColType) (u v : ColTimeUnit)
    (a b : List (Bool × Int)) (hag : NullSlotAgree a b) :
    castIntSafe tgt a = castIntSafe tgt b ∧
    ∀ tr : Bool, castTimestamp u v tr a = castTimestamp u v tr b := by
  constructor
  · rw [castIntSafe, castIntSafe, nullAgree_all a b hag (fun z => tgt.fits z)]
    by_cases hall : b.all (fun e => !e.1 || tgt.fits e.2)
    · rw [if_pos hall, if_pos hall, nullAgree_map a b hag (fun z => z)]
    · rw [if_neg hall, if_neg hall]
  · intro tr
    rw [castTimestamp, castTimestamp]
    by_cases hscale : u.scale ≤ v.scale
    · rw [if_pos hscale, if_pos hscale]
      dsimp only
      rw [nullAgree_map a b hag (fun z => z * Int.ofNat (v.scale / u.scale))]
    · rw [if_neg hscale, if_neg hscale]
      dsimp only
      cases tr with
      | true =>
        rw [if_pos rfl, if_pos rfl,
          nullAgree_map a b hag (fun z => z.tdiv (Int.ofNat (u.scale / v.scale)))]
      | false =>
        rw [if_neg (Bool.false_ne_true), if_neg (Bool.false_ne_true),
          nullAgree_all a b hag (fun z => z % Int.ofNat (u.scale / v.scale) == 0)]
        by_cases hall : b.all (fun e => !e.1 || (e.2 % Int.ofNat (u.scale / v.scale) == 0))
        · rw [if_pos hall, if_pos hall,
            nullAgree_map a b hag (fun z => z.tdiv (Int.ofNat (u.scale / v.scale)))]
        · rw [if_neg hall, if_neg hall]

/-- Instantiation of C6: two int32 columns differing only in the value bytes
of their null slot cast identically to int16 under
`allow_int_overflow = false` (one of the hidden bytes is out of range), and
likewise for a ms-to-s timestamp cast with truncation checks on. -/
theorem c6_cast_ignores_null_slot_bytes_witness :
    castIntSafe { signed := true, bits := 16 }
        [(true, 0), (false, 70000), (true, 2000)] =
      castIntSafe { signed := true, bits := 16 }
        [(true, 0), (false, 123), (true, 2000)] ∧
    ∀ tr : Bool, castTimestamp ColTimeUnit.milli ColTimeUnit.second tr
        [(true, 0), (false, 70000), (true, 2000)] =
      castTimestamp ColTimeUnit.milli ColTimeUnit.second tr
        [(true, 0), (false, 123), (true, 2000)] := by
  apply c6_cast_ignores_null_slot_bytes
  exact List.Forall₂.cons ⟨rfl, fun _ => rfl⟩
    (List.Forall₂.cons ⟨rfl, fun hc => Bool.noConfusion hc⟩
      (List.Forall₂.cons ⟨rfl, fun _ => rfl⟩ List.Forall₂.nil))

/-! ### Null-type kernel (C9) -/

theorem nullAppendIndices_eq (n : Nat) :
    nullAppendIndices n = List.replicate n (none : Option Int) := by
  induction n with
  | zero => rfl
  | succ k ih => simp [nullAppendIndices, List.replicate, ih]

/-- C9: on a Null-type input of any length `n`, `Unique` returns a length-0
array and `DictionaryEncode` an all-null index array of length `n`. -/
theorem c9_null_type_kernel (n : Nat) :
    nullUniqueRun n = [] ∧
    nullDictEncodeRun n = ([], List.replicate n (none : Option Int)) ∧
    (nullDictEncodeRun n).2.length = n := by
  refine ⟨rfl, ?_, ?_⟩
  · unfold nullDictEncodeRun
    rw [nullAppendIndices_eq]
  · unfold nullDictEncodeRun
    rw [nullAppendIndices_eq]
    exact List.length_replicate n _

theorem natToBits_length (w : Nat) : ∀ n, (natToBits w n).length = w := by
  induction w with
  | zero => intro n; rfl
  | succ k ih => intro n; simp [natToBits, ih]

theorem packBits_length (w : Nat) (ds : List Nat) :
    (packBits w ds).length = w * ds.length := by
  induction ds with
  | nil => simp [packBits]
  | cons d ds ih =>
    simp only [packBits, List.flatMap_cons, List.length_append, natToBits_length,
      List.length_cons] at *
    rw [ih]; ring

theorem bitsToBytesAux_length : ∀ (fuel : Nat) (bs : List Bool),
    bs.length ≤ fuel → (bitsToBytesAux fuel bs).length = (bs.length + 7) / 8 := by
  intro fuel
  induction fuel with
  | zero =>
    intro bs hb
    rw [List.eq_nil_of_length_eq_zero (Nat.le_zero.mp hb)]
    rfl
  | succ f ih =>
    intro bs hb
    match bs with
    | [] => rfl
    | b :: rest =>
      show (bitsToNat ((b :: rest).take 8) ::
          bitsToBytesAux f ((b :: rest).drop 8)).length = _
      rw [List.length_cons, ih ((b :: rest).drop 8)
        (by simp only [List.length_drop, List.length_cons] at hb ⊢; omega)]
      simp only [List.length_drop, List.length_cons] at hb ⊢
      omega

theorem bitsToBytes_length (bs : List Bool) :
    (bitsToBytes bs).length = (bs.length + 7) / 8 :=
  bitsToBytesAux_length bs.length bs (Nat.le_refl _)

theorem rleEncodeAux_length (w : Nat) : ∀ (fuel : Nat) (xs : List Nat),
    xs.length ≤ fuel →
    (rleEncodeAux w fuel xs).length = ((xs.length + 7) / 8) * (1 + w) := by
  intro fuel
  induction fuel with
  | zero =>
    intro xs hx
    rw [List.eq_nil_of_length_eq_zero (Nat.le_zero.mp hx)]
    simp [rleEncodeAux]
  | succ f ih =>
    intro xs hx
    match xs with
    | [] => simp [rleEncodeAux]
    | x :: rest =>
      show (3 :: (bitsToBytes (packBits w ((x :: rest).take 8 ++
          List.replicate (8 - (x :: rest).length) 0)) ++
          rleEncodeAux w f ((x :: rest).drop 8))).length = _
      rw [List.length_cons, List.length_append, bitsToBytes_length, packBits_length,
        ih ((x :: rest).drop 8)
          (by simp only [List.length_drop, List.length_cons] at hx ⊢; omega)]
      simp only [List.length_append, List.length_take, List.length_replicate,
        List.length_drop, List.length_cons] at *
      have hpad : min 8 (rest.length + 1) + (8 - (rest.length + 1)) = 8 := by omega
      rw [hpad]
      have hq : (rest.length + 1 - 8 + 7) / 8 + 1 = (rest.length + 1 + 7) / 8 := by
        omega
      have hw8 : (w * 8 + 7) / 8 = w := by omega
      rw [hw8, ← hq]
      ring

theorem rleEncodeBytes_length (w : Nat) (xs : List Nat) :
    (rleEncodeBytes w xs).length = ((xs.length + 7) / 8) * (1 + w) :=
  rleEncodeAux_length w xs.length xs (Nat.le_refl _)

theorem writeIndicesBytes_le {α : Type} (s : DictEncState α) :
    (writeIndicesBytes s).length ≤ estimatedDataEncodedSize s := by
  unfold writeIndicesBytes estimatedDataEncodedSize rleMaxBufferSize
  rw [List.length_cons, rleEncodeBytes_length]
  omega

/-- C10: if `WriteIndices` returns `-1` because the buffer is too small, the
buffered index list is left unchanged (indices are cleared only on success),
and a retry against any buffer of at least `EstimatedDataEncodedSize` bytes
succeeds and encodes the complete original index sequence. -/
theorem c10_write_indices_retry {α : Type} (s : DictEncState α) (cap1 cap2 : Nat)
    (hfail : (writeIndices s cap1).1 = -1)
    (hbig : estimatedDataEncodedSize s ≤ cap2) :
    (writeIndices s cap1).2.1 = s ∧
    writeIndices (writeIndices s cap1).2.1 cap2 =
      (Int.ofNat (writeIndicesBytes s).length,
       { memoTable := s.memoTable, dictEncodedSize := s.dictEncodedSize,
         bufferedIndices := [] },
       writeIndicesBytes s) := by
  have hlen : (writeIndicesBytes s).length ≤ cap2 :=
    le_trans (writeIndicesBytes_le s) hbig
  have hne : ¬ (writeIndicesBytes s).length ≤ cap1 := by
    intro hle
    unfold writeIndices at hfail
    rw [if_pos hle] at hfail
    have h2 : Int.ofNat (writeIndicesBytes s).length = -1 := hfail
    simp only [Int.ofNat_eq_coe] at h2
    omega
  have h1 : writeIndices s cap1 = (-1, s, []) := by
    unfold writeIndices
    rw [if_neg hne]
  rw [h1]
  refine ⟨rfl, ?_⟩
  show writeIndices s cap2 = _
  unfold writeIndices
  rw [if_pos hlen]

theorem c10_write_indices_retry_witness :
    ((writeIndices c10State 0).1 = -1 ∧ estimatedDataEncodedSize c10State ≤ 9) ∧
    ((writeIndices c10State 0).2.1 = c10State ∧
     writeIndices (writeIndices c10State 0).2.1 9 =
       (Int.ofNat (writeIndicesBytes c10State).length,
        { memoTable := c10State.memoTable,
          dictEncodedSize := c10State.dictEncodedSize,
          bufferedIndices := [] },
        writeIndicesBytes c10State)) :=
  ⟨⟨by decide, by decide⟩, c10_write_indices_retry c10State 0 9 (by decide) (by decide)⟩

theorem dictPut_mem {α : Type} [inst : DecidableEq α] (eb : α → Nat)
    (s : DictEncState α) (v : α) (hv : v ∈ s.memoTable) :
    (dictPut eb s v).dictEncodedSize = s.dictEncodedSize ∧
    (dictPut eb s v).memoTable = s.memoTable := by
  unfold dictPut memoGetOrInsert
  cases hidx : s.memoTable.indexOf? v with
  | none =>
    exfalso
    rw [List.indexOf?_eq_none_iff] at hidx
    exact hidx v hv (by simp)
  | some i => exact ⟨rfl, rfl⟩

theorem dictPut_not_mem {α : Type} [inst : DecidableEq α] (eb : α → Nat)
    (s : DictEncState α) (v : α) (hv : ¬ v ∈ s.memoTable) :
    (dictPut eb s v).dictEncodedSize = s.dictEncodedSize + eb v ∧
    (dictPut eb s v).memoTable = s.memoTable ++ [v] := by
  have hnone : s.memoTable.indexOf? v = none :=
    List.indexOf?_eq_none_iff.mpr (fun x hx hbeq => hv (beq_iff_eq.mp hbeq ▸ hx))
  unfold dictPut memoGetOrInsert
  rw [hnone]
  exact ⟨rfl, rfl⟩

theorem dictPut_size_invariant {α : Type} [inst : DecidableEq α] (eb : α → Nat)
    (ser : α → List Nat) (s : DictEncState α) (v : α)
    (hv : (ser v).length = eb v)
    (hmem : ∀ u ∈ s.memoTable, (ser u).length = eb u)
    (hsz : s.dictEncodedSize = (writeDict ser s).length) :
    (∀ u ∈ (dictPut eb s v).memoTable, (ser u).length = eb u) ∧
    (dictPut eb s v).dictEncodedSize = (writeDict ser (dictPut eb s v)).length := by
  by_cases hin : v ∈ s.memoTable
  · obtain ⟨h1, h2⟩ := dictPut_mem eb s v hin
    rw [h1, writeDict, h2]
    exact ⟨hmem, by rw [hsz]; rfl⟩
  · obtain ⟨h1, h2⟩ := dictPut_not_mem eb s v hin
    rw [h1, writeDict, h2]
    constructor
    · intro u hu
      rcases List.mem_append.mp hu with hul | hur
      · exact hmem u hul
      · rw [List.mem_singleton.mp hur]
        exact hv
    · rw [List.flatMap_append, List.length_append, hsz]
      simp [writeDict, hv]

theorem dictPutMany_size_invariant {α : Type} [inst : DecidableEq α]
    (eb : α → Nat) (ser : α → List Nat) (vs : List α) :
    ∀ s : DictEncState α,
    (∀ v ∈ vs, (ser v).length = eb v) →
    (∀ u ∈ s.memoTable, (ser u).length = eb u) →
    s.dictEncodedSize = (writeDict ser s).length →
    (∀ u ∈ (dictPutMany eb s vs).memoTable, (ser u).length = eb u) ∧
    (dictPutMany eb s vs).dictEncodedSize =
      (writeDict ser (dictPutMany eb s vs)).length := by
  induction vs with
  | nil => intro s _ hmem hsz; exact ⟨hmem, hsz⟩
  | cons v vs ih =>
    intro s hvs hmem hsz
    obtain ⟨h1, h2⟩ := dictPut_size_invariant eb ser s v
      (hvs v (List.mem_cons_self v vs)) hmem hsz
    exact ih (dictPut eb s v) (fun u hu => hvs u (List.mem_cons_of_mem v hu)) h1 h2

theorem dictPutSpaced_eq_many {α : Type} [inst : DecidableEq α] (eb : α → Nat)
    (vs : List (Bool × α)) : ∀ s : DictEncState α,
    dictPutSpaced eb s vs =
      dictPutMany eb s ((vs.filter (fun e => e.1)).map (fun e => e.2)) := by
  induction vs with
  | nil => intro s; rfl
  | cons e vs ih =>
    intro s
    by_cases he : e.1 = true
    · show dictPutSpaced eb (if e.1 then dictPut eb s e.2 else s) vs = _
      rw [if_pos he, List.filter_cons_of_pos he, List.map_cons]
      show _ = dictPutMany eb (dictPut eb s e.2)
        (List.map (fun e => e.2) (List.filter (fun e => e.1) vs))
      exact ih (dictPut eb s e.2)
    · show dictPutSpaced eb (if e.1 then dictPut eb s e.2 else s) vs = _
      rw [if_neg he, List.filter_cons_of_neg he]
      exact ih s

theorem applyDictOp_size_invariant {α : Type} [inst : DecidableEq α]
    (eb : α → Nat) (ser : α → List Nat) (op : DictOp α) (s : DictEncState α)
    (hop : ∀ v ∈ dictOpValues op, (ser v).length = eb v)
    (hmem : ∀ u ∈ s.memoTable, (ser u).length = eb u)
    (hsz : s.dictEncodedSize = (writeDict ser s).length) :
    (∀ u ∈ (applyDictOp eb s op).memoTable, (ser u).length = eb u) ∧
    (applyDictOp eb s op).dictEncodedSize =
      (writeDict ser (applyDictOp eb s op)).length := by
  cases op with
  | put v =>
    exact dictPut_size_invariant eb ser s v
      (hop v (List.mem_singleton.mpr rfl)) hmem hsz
  | putMany vs =>
    exact dictPutMany_size_invariant eb ser vs s hop hmem hsz
  | putSpaced vs =>
    show (∀ u ∈ (dictPutSpaced eb s vs).memoTable, (ser u).length = eb u) ∧
      (dictPutSpaced eb s vs).dictEncodedSize =
        (writeDict ser (dictPutSpaced eb s vs)).length
    rw [dictPutSpaced_eq_many]
    exact dictPutMany_size_invariant eb ser _ s hop hmem hsz

theorem applyDictOps_size_invariant {α : Type} [inst : DecidableEq α]
    (eb : α → Nat) (ser : α → List Nat) (ops : List (DictOp α)) :
    ∀ s : DictEncState α,
    (∀ op ∈ ops, ∀ v ∈ dictOpValues op, (ser v).length = eb v) →
    (∀ u ∈ s.memoTable, (ser u).length = eb u) →
    s.dictEncodedSize = (writeDict ser s).length →
    (∀ u ∈ (applyDictOps eb s ops).memoTable, (ser u).length = eb u) ∧
    (applyDictOps eb s ops).dictEncodedSize =
      (writeDict ser (applyDictOps eb s ops)).length := by
  induction ops with
  | nil => intro s _ hmem hsz; exact ⟨hmem, hsz⟩
  | cons op ops ih =>
    intro s hops hmem hsz
    obtain ⟨h1, h2⟩ := applyDictOp_size_invariant eb ser op s
      (hops op (List.mem_cons_self op ops)) hmem hsz
    exact ih (applyDictOp eb s op)
      (fun o ho => hops o (List.mem_cons_of_mem op ho)) h1 h2

theorem intLEBytes_length (n : Nat) (z : Int) : (intLEBytes n z).length = n := by
  rw [intLEBytes, List.length_map, List.length_range]

theorem byteArraySerialize_length (bs : List Nat) :
    (byteArraySerialize bs).length = 4 + bs.length := by
  rw [byteArraySerialize, List.length_append, natLEBytes, List.length_map,
    List.length_range]

/-- C8: after any sequence of `Put`/`PutMany`/`PutSpaced` calls from the fresh
encoder, `dict_encoded_size_` equals the exact byte length of the dictionary
page `WriteDict` emits, provided each inserted value's serialized form has the
accounted entry size — instantiated by `sizeof(T)`-byte primitives
(`intLEBytes`), length-prefixed byte arrays (`byteArraySerialize`, `4 + len`
bytes) and `type_length`-byte fixed-size binaries (identity serialization);
moreover the counter grows exactly on insertion of a new distinct value and is
unchanged on a repeated one. -/
theorem c8_dict_encoded_size {α : Type} [inst : DecidableEq α]
    (entryBytes : α → Nat) (serialize : α → List Nat) (ops : List (DictOp α))
    (hser : ∀ op ∈ ops, ∀ v ∈ dictOpValues op,
      (serialize v).length = entryBytes v) :
    (applyDictOps entryBytes (dictEncInit α) ops).dictEncodedSize =
      (writeDict serialize (applyDictOps entryBytes (dictEncInit α) ops)).length ∧
    (∀ (s : DictEncState α) (v : α), v ∈ s.memoTable →
      (dictPut entryBytes s v).dictEncodedSize = s.dictEncodedSize ∧
      (dictPut entryBytes s v).memoTable = s.memoTable) ∧
    (∀ (s : DictEncState α) (v : α), ¬ v ∈ s.memoTable →
      (dictPut entryBytes s v).dictEncodedSize =
        s.dictEncodedSize + entryBytes v) ∧
    (∀ (n : Nat) (z : Int), (intLEBytes n z).length = n) ∧
    (∀ (bs : List Nat), (byteArraySerialize bs).length = 4 + bs.length) := by
  refine ⟨?_, ?_, ?_, intLEBytes_length, byteArraySerialize_length⟩
  · exact (applyDictOps_size_invariant entryBytes serialize ops (dictEncInit α)
      hser (by intro u hu; cases hu) rfl).2
  · intro s v hv
    exact dictPut_mem entryBytes s v hv
  · intro s v hv
    exact (dictPut_not_mem entryBytes s v hv).1

theorem c8_dict_encoded_size_witness :
    (∀ op ∈ ([DictOp.putMany [[2, 3], [2, 3], [7]], DictOp.put [9],
        DictOp.putSpaced [(true, [2, 3]), (false, [100])]] :
        List (DictOp (List Nat))), ∀ v ∈ dictOpValues op,
      ((fun (u : List Nat) => u) v).length = v.length) ∧
    ((applyDictOps (fun (u : List Nat) => u.length) (dictEncInit (List Nat))
        [DictOp.putMany [[2, 3], [2, 3], [7]], DictOp.put [9],
         DictOp.putSpaced [(true, [2, 3]), (false, [100])]]).dictEncodedSize =
      (writeDict (fun (u : List Nat) => u) (applyDictOps
        (fun (u : List Nat) => u.length) (dictEncInit (List Nat))
        [DictOp.putMany [[2, 3], [2, 3], [7]], DictOp.put [9],
         DictOp.putSpaced [(true, [2, 3]), (false, [100])]])).length ∧
    (∀ (s : DictEncState (List Nat)) (v : List Nat), v ∈ s.memoTable →
      (dictPut (fun (u : List Nat) => u.length) s v).dictEncodedSize =
        s.dictEncodedSize ∧
      (dictPut (fun (u : List Nat) => u.length) s v).memoTable = s.memoTable) ∧
    (∀ (s : DictEncState (List Nat)) (v : List Nat), ¬ v ∈ s.memoTable →
      (dictPut (fun (u : List Nat) => u.length) s v).dictEncodedSize =
        s.dictEncodedSize + v.length) ∧
    (∀ (n : Nat) (z : Int), (intLEBytes n z).length = n) ∧
    (∀ (bs : List Nat), (byteArraySerialize bs).length = 4 + bs.length)) :=
  ⟨by decide, c8_dict_encoded_size (fun (u : List Nat) => u.length)
    (fun (u : List Nat) => u)
    [DictOp.putMany [[2, 3], [2, 3], [7]], DictOp.put [9],
     DictOp.putSpaced [(true, [2, 3]), (false, [100])]] (by decide)⟩

theorem bitsToNat_natToBits (w : Nat) : ∀ n, n < 2 ^ w →
    bitsToNat (natToBits w n) = n := by
  induction w with
  | zero =>
    intro n hn
    interval_cases n
    rfl
  | succ k ih =>
    intro n hn
    rw [natToBits, bitsToNat, ih (n / 2) (by rw [pow_succ] at hn; omega)]
    rcases Nat.mod_two_eq_zero_or_one n with h | h <;> simp [h] <;> omega

theorem getValue_encoded (w n : Nat) (rest : List Bool) (hn : n < 2 ^ w) :
    getValue w (natToBits w n ++ rest) = some (n, rest) := by
  rw [getValue, if_pos]
  · rw [List.take_append_of_le_length (by rw [natToBits_length]),
      List.take_of_length_le (by rw [natToBits_length]),
      List.drop_append_of_le_length (by rw [natToBits_length]),
      List.drop_of_length_le (by rw [natToBits_length]), List.nil_append,
      bitsToNat_natToBits w n hn]
  · rw [List.length_append, natToBits_length]
    omega

theorem getVlq_encoded_aux : ∀ (fuel : Nat) (n : Nat) (rest : List Bool),
    0 < fuel → n < 128 ^ fuel →
    getVlqAux fuel (encodeVlqAux fuel n ++ rest) = some (n, rest) := by
  intro fuel
  induction fuel with
  | zero => intro n rest h0 _; omega
  | succ f ih =>
    intro n rest _ hn
    by_cases hsmall : n < 128
    · rw [encodeVlqAux, if_pos hsmall]
      show getVlqAux (f + 1) (byteBits n ++ rest) = _
      rw [getVlqAux, byteBits, getValue_encoded 8 n rest (by omega)]
      dsimp only
      rw [if_pos hsmall]
    · rw [encodeVlqAux, if_neg hsmall]
      show getVlqAux (f + 1)
          (byteBits (n % 128 + 128) ++ encodeVlqAux f (n / 128) ++ rest) = _
      rw [List.append_assoc, getVlqAux, byteBits,
        getValue_encoded 8 (n % 128 + 128) _ (by omega)]
      have hf : 0 < f := by
        by_contra hf0
        have : f = 0 := by omega
        subst this
        rw [pow_one] at hn
        omega
      have hdiv : n / 128 < 128 ^ f := by
        rw [pow_succ] at hn
        exact Nat.div_lt_of_lt_mul (by omega)
      dsimp only
      rw [if_neg (show ¬ n % 128 + 128 < 128 by omega), ih (n / 128) rest hf hdiv]
      dsimp only
      have h2 : (n % 128 + 128) % 128 = n % 128 := by omega
      rw [h2, Nat.mod_add_div n 128]

theorem getVlq_encoded (n : Nat) (rest : List Bool) (hn : n < 2 ^ 32) :
    getVlq (encodeVlq n ++ rest) = some (n, rest) := by
  rw [getVlq, encodeVlq]
  exact getVlq_encoded_aux 5 n rest (by omega) (by norm_num at hn ⊢; omega)

theorem zigzagEncode_lt (v : Int) (h1 : -(2 ^ 31) ≤ v) (h2 : v < 2 ^ 31) :
    zigzagEncode v < 2 ^ 32 := by
  rw [zigzagEncode]
  by_cases h0 : 0 ≤ v
  · rw [if_pos h0]
    norm_num at h2 ⊢
    omega
  · rw [if_neg h0]
    norm_num at h1 ⊢
    omega

theorem zigzag_roundtrip (v : Int) (h1 : -(2 ^ 31) ≤ v) (h2 : v < 2 ^ 31) :
    zigzagDecode (zigzagEncode v) = v := by
  rw [zigzagEncode, zigzagDecode]
  by_cases h0 : 0 ≤ v
  · rw [if_pos h0]
    have hm : 2 * v.toNat % 2 ^ 32 = 2 * v.toNat := by
      apply Nat.mod_eq_of_lt
      norm_num at h2 ⊢
      omega
    simp only [hm]
    rw [if_pos (by omega)]
    have hd : 2 * v.toNat / 2 = v.toNat := by omega
    rw [hd]
    simp only [Int.ofNat_eq_coe]
    omega
  · rw [if_neg h0]
    have hvn : 1 ≤ (-v).toNat := by omega
    have hm : (2 * (-v).toNat - 1) % 2 ^ 32 = 2 * (-v).toNat - 1 := by
      apply Nat.mod_eq_of_lt
      norm_num at h1 ⊢
      omega
    simp only [hm]
    rw [if_neg (by omega)]
    have hd : (2 * (-v).toNat - 1) / 2 = (-v).toNat - 1 := by omega
    rw [hd]
    simp only [Int.ofNat_eq_coe]
    omega

theorem getZigZagVlq_encoded (v : Int) (rest : List Bool)
    (h1 : -(2 ^ 31) ≤ v) (h2 : v < 2 ^ 31) :
    getZigZagVlq (encodeZigZagVlq v ++ rest) = some (v, rest) := by
  rw [getZigZagVlq, encodeZigZagVlq,
    getVlq_encoded (zigzagEncode v) rest (zigzagEncode_lt v h1 h2)]
  show some (zigzagDecode (zigzagEncode v), rest) = _
  rw [zigzag_roundtrip v h1 h2]

theorem readBytes_encoded : ∀ (ws : List Nat) (rest : List Bool),
    (∀ x ∈ ws, x < 256) →
    readBytes ws.length (ws.flatMap byteBits ++ rest) = some (ws, rest) := by
  intro ws
  induction ws with
  | nil => intro rest _; rfl
  | cons x ws ih =>
    intro rest hx
    show readBytes (ws.length + 1) ((byteBits x ++ ws.flatMap byteBits) ++ rest)
      = _
    rw [readBytes, List.append_assoc, byteBits,
      getValue_encoded 8 x _ (by exact hx x (List.mem_cons_self x ws))]
    dsimp only
    rw [ih rest (fun y hy => hx y (List.mem_cons_of_mem x hy))]

theorem initBlock_encoded (b : BlockSpec) (rest : List Bool) (s : DeltaState)
    (hwf : BlockWF b) (hbits : s.bits = encodeBlockSpec b ++ rest) :
    initBlock s = some { s with
      bits := b.minis.flatMap (fun m => packBits m.1 m.2) ++ rest,
      valuesCurrentBlock := b.per * b.minis.length,
      numMiniBlocks := b.minis.length,
      valuesPerMini := b.per,
      valuesCurrentMini := b.per,
      minDelta := b.minDelta,
      widths := b.minis.map Prod.fst,
      miniBlockIdx := 0,
      deltaBitWidth := (b.minis.map Prod.fst).getD 0 0,
      lastValue := b.first } := by
  obtain ⟨hper, hlen, hbl, hnl, hf1, hf2, hd1, hd2, hm⟩ := hwf
  have hwlt : ∀ x ∈ b.minis.map Prod.fst, x < 256 := by
    intro x hx
    obtain ⟨m, hmm, rfl⟩ := List.mem_map.mp hx
    exact (hm m hmm).1
  have hrb := readBytes_encoded (b.minis.map Prod.fst)
    (b.minis.flatMap (fun m => packBits m.1 m.2) ++ rest) hwlt
  rw [List.length_map] at hrb
  rw [initBlock, hbits, encodeBlockSpec]
  simp only [List.append_assoc]
  rw [getVlq_encoded (b.per * b.minis.length) _ (by norm_num at hbl ⊢; omega)]
  dsimp only
  rw [getVlq_encoded b.minis.length _ (by norm_num at hnl ⊢; omega)]
  dsimp only
  rw [getVlq_encoded (b.per * b.minis.length) _ (by norm_num at hbl ⊢; omega)]
  dsimp only
  rw [getZigZagVlq_encoded b.first _ hf1 hf2]
  dsimp only
  rw [getZigZagVlq_encoded b.minDelta _ hd1 hd2]
  dsimp only
  rw [hrb]
  dsimp only
  rw [Nat.mul_div_cancel _ hlen]

theorem getLoop_add (a : Nat) : ∀ (c : Nat) (s : DeltaState),
    getLoop (a + c) s =
      match getLoop a s with
      | none => none
      | some (vs, s1) =>
        match getLoop c s1 with
        | none => none
        | some (ws, s2) => some (vs ++ ws, s2) := by
  induction a with
  | zero =>
    intro c s
    rw [Nat.zero_add]
    have h0 : getLoop 0 s = some ([], s) := rfl
    rw [h0]
    dsimp only
    cases h : getLoop c s with
    | none => rfl
    | some p =>
      obtain ⟨ws, s2⟩ := p
      dsimp only
      rw [List.nil_append]
  | succ k ih =>
    intro c s
    have hshape : k + 1 + c = k + c + 1 := by omega
    rw [hshape]
    rw [getLoop]
    conv_rhs => rw [getLoop]
    by_cases h0 : s.valuesCurrentMini = 0
    · rw [if_pos h0, if_pos h0]
      by_cases h1 : s.miniBlockIdx + 1 < s.widths.length
      · rw [if_pos h1, if_pos h1]
        dsimp only
        cases hd : decodeStep { s with
            miniBlockIdx := s.miniBlockIdx + 1,
            deltaBitWidth := s.widths.getD (s.miniBlockIdx + 1) 0,
            valuesCurrentMini := s.valuesPerMini } with
        | none => rfl
        | some p =>
          obtain ⟨v, s2⟩ := p
          dsimp only
          rw [ih c s2]
          cases h2 : getLoop k s2 with
          | none => rfl
          | some q =>
            obtain ⟨vs, s3⟩ := q
            dsimp only
            cases h3 : getLoop c s3 with
            | none => rfl
            | some r =>
              obtain ⟨ws, s4⟩ := r
              dsimp only
              rw [List.cons_append]
      · rw [if_neg h1, if_neg h1]
        cases hi : initBlock s with
        | none => rfl
        | some s2 =>
          dsimp only
          rw [ih c s2]
          cases h2 : getLoop k s2 with
          | none => rfl
          | some q =>
            obtain ⟨vs, s3⟩ := q
            dsimp only
            cases h3 : getLoop c s3 with
            | none => rfl
            | some r =>
              obtain ⟨ws, s4⟩ := r
              dsimp only
              rw [List.cons_append]
    · rw [if_neg h0, if_neg h0]
      cases hd : decodeStep s with
      | none => rfl
      | some p =>
        obtain ⟨v, s2⟩ := p
        dsimp only
        rw [ih c s2]
        cases h2 : getLoop k s2 with
        | none => rfl
        | some q =>
          obtain ⟨vs, s3⟩ := q
          dsimp only
          cases h3 : getLoop c s3 with
          | none => rfl
          | some r =>
            obtain ⟨ws, s4⟩ := r
            dsimp only
            rw [List.cons_append]

theorem decodeStep_encoded (s : DeltaState) (d : Nat) (tail : List Bool)
    (hd : d < 2 ^ s.deltaBitWidth)
    (hbits : s.bits = natToBits s.deltaBitWidth d ++ tail) :
    decodeStep s =
      some (wrap32 (s.lastValue + wrap32 (s.minDelta + Int.ofNat d)),
        { s with
          bits := tail,
          lastValue := wrap32 (s.lastValue + wrap32 (s.minDelta + Int.ofNat d)),
          valuesCurrentMini := s.valuesCurrentMini - 1 }) := by
  rw [decodeStep, hbits, getValue_encoded _ d tail hd]

theorem getLoop_deltas : ∀ (ds : List Nat) (s : DeltaState) (tail : List Bool),
    (∀ d ∈ ds, d < 2 ^ s.deltaBitWidth) →
    s.bits = packBits s.deltaBitWidth ds ++ tail →
    s.valuesCurrentMini = ds.length →
    getLoop ds.length s =
      some ((runDeltas s.lastValue s.minDelta ds).1,
        { s with
          bits := tail,
          lastValue := (runDeltas s.lastValue s.minDelta ds).2,
          valuesCurrentMini := 0 }) := by
  intro ds
  induction ds with
  | nil =>
    intro s tail _ hbits hcnt
    have htail : tail = s.bits := by
      rw [hbits]
      rfl
    rw [List.length_nil]
    show some ([], s) = _
    rw [runDeltas]
    dsimp only
    rw [htail, show (0 : Nat) = s.valuesCurrentMini from by rw [hcnt]; rfl]
  | cons d ds ih =>
    intro s tail hlt hbits hcnt
    have hbits' : s.bits =
        natToBits s.deltaBitWidth d ++ (packBits s.deltaBitWidth ds ++ tail) := by
      rw [hbits]
      show packBits s.deltaBitWidth (d :: ds) ++ tail = _
      rw [packBits, List.flatMap_cons, List.append_assoc]
      rfl
    rw [List.length_cons, getLoop,
      if_neg (show ¬ s.valuesCurrentMini = 0 by
        rw [hcnt, List.length_cons]; omega),
      decodeStep_encoded s d (packBits s.deltaBitWidth ds ++ tail)
        (hlt d (List.mem_cons_self d ds)) hbits']
    dsimp only
    rw [ih { s with
        bits := packBits s.deltaBitWidth ds ++ tail,
        lastValue := wrap32 (s.lastValue + wrap32 (s.minDelta + Int.ofNat d)),
        valuesCurrentMini := s.valuesCurrentMini - 1 } tail
      (fun x hx => hlt x (List.mem_cons_of_mem d hx)) rfl
      (show s.valuesCurrentMini - 1 = ds.length by
        rw [hcnt, List.length_cons]; omega)]
    dsimp only
    rw [runDeltas]

theorem getLoop_one_mini (s : DeltaState) (wm : Nat) (ds : List Nat)
    (tail : List Bool)
    (h0 : s.valuesCurrentMini = 0)
    (h1 : s.miniBlockIdx + 1 < s.widths.length)
    (hw : s.widths.getD (s.miniBlockIdx + 1) 0 = wm)
    (hper : s.valuesPerMini = ds.length)
    (hne : ds ≠ [])
    (hlt : ∀ x ∈ ds, x < 2 ^ wm)
    (hbits : s.bits = packBits wm ds ++ tail) :
    getLoop ds.length s =
      some ((runDeltas s.lastValue s.minDelta ds).1,
        { s with
          bits := tail,
          miniBlockIdx := s.miniBlockIdx + 1,
          deltaBitWidth := wm,
          lastValue := (runDeltas s.lastValue s.minDelta ds).2,
          valuesCurrentMini := 0 }) := by
  match ds, hne with
  | d :: ds', _ =>
    rw [List.length_cons, getLoop, if_pos h0, if_pos h1]
    dsimp only
    rw [hw, hper, List.length_cons]
    have hbits' : s.bits = natToBits wm d ++ (packBits wm ds' ++ tail) := by
      rw [hbits]
      show packBits wm (d :: ds') ++ tail = _
      rw [packBits, List.flatMap_cons, List.append_assoc]
      rfl
    rw [decodeStep_encoded { s with
        valuesPerMini := ds'.length + 1,
        miniBlockIdx := s.miniBlockIdx + 1,
        deltaBitWidth := wm,
        valuesCurrentMini := ds'.length + 1 } d (packBits wm ds' ++ tail)
      (hlt d (List.mem_cons_self d ds')) hbits']
    dsimp only
    rw [getLoop_deltas ds' { s with
        bits := packBits wm ds' ++ tail,
        valuesPerMini := ds'.length + 1,
        miniBlockIdx := s.miniBlockIdx + 1,
        deltaBitWidth := wm,
        lastValue := wrap32 (s.lastValue + wrap32 (s.minDelta + Int.ofNat d)),
        valuesCurrentMini := ds'.length + 1 - 1 } tail
      (fun x hx => hlt x (List.mem_cons_of_mem d hx)) rfl
      (by show ds'.length + 1 - 1 = ds'.length; omega)]
    dsimp only
    rw [runDeltas]

theorem getD_map_fst (l : List (Nat × List Nat)) : ∀ (k : Nat),
    (l.map Prod.fst).getD k 0 = (l.getD k (0, [])).1 := by
  induction l with
  | nil => intro k; cases k <;> rfl
  | cons m l ih =>
    intro k
    cases k with
    | zero => rfl
    | succ j =>
      rw [List.map_cons, List.getD_cons_succ, List.getD_cons_succ, ih]

theorem getLoop_minis_tail : ∀ (ms : List (Nat × List Nat)) (s : DeltaState)
    (tail : List Bool),
    s.valuesCurrentMini = 0 →
    s.widths.length = s.miniBlockIdx + 1 + ms.length →
    (∀ k, k < ms.length →
      s.widths.getD (s.miniBlockIdx + 1 + k) 0 = (ms.getD k (0, [])).1) →
    s.bits = ms.flatMap (fun m => packBits m.1 m.2) ++ tail →
    (∀ m ∈ ms, m.2.length = s.valuesPerMini) →
    0 < s.valuesPerMini →
    (∀ m ∈ ms, ∀ x ∈ m.2, x < 2 ^ m.1) →
    ∃ s2 : DeltaState,
      getLoop (s.valuesPerMini * ms.length) s =
        some ((runMinis s.lastValue s.minDelta ms).1, s2) ∧
      s2.valuesCurrentMini = 0 ∧ s2.widths = s.widths ∧
      s2.miniBlockIdx = s.miniBlockIdx + ms.length ∧ s2.bits = tail := by
  intro ms
  induction ms with
  | nil =>
    intro s tail h0 _ _ hbits _ _ _
    refine ⟨s, ?_, h0, rfl, (Nat.add_zero _).symm, by rw [hbits]; rfl⟩
    rw [List.length_nil, Nat.mul_zero, runMinis]
    rfl
  | cons m ms' ih =>
    intro s tail h0 hwl hk hbits hm hpos hx
    have hm2 : m.2.length = s.valuesPerMini := hm m (List.mem_cons_self m ms')
    rw [List.length_cons] at hwl
    have hlen : s.valuesPerMini * (m :: ms').length =
        m.2.length + s.valuesPerMini * ms'.length := by
      rw [List.length_cons, hm2]
      ring
    have hw1 : s.widths.getD (s.miniBlockIdx + 1) 0 = m.1 := by
      have h3 := hk 0 (by rw [List.length_cons]; omega)
      rw [Nat.add_zero] at h3
      exact h3
    have hbits1 : s.bits = packBits m.1 m.2 ++
        (ms'.flatMap (fun m => packBits m.1 m.2) ++ tail) := by
      rw [hbits]
      show ((m :: ms').flatMap (fun m => packBits m.1 m.2)) ++ tail = _
      rw [List.flatMap_cons, List.append_assoc]
    have hone := getLoop_one_mini s m.1 m.2
      (ms'.flatMap (fun m => packBits m.1 m.2) ++ tail) h0
      (by omega) hw1 hm2.symm
      (by
        intro hnil
        rw [hnil] at hm2
        simp only [List.length_nil] at hm2
        omega)
      (hx m (List.mem_cons_self m ms')) hbits1
    obtain ⟨s2, hloop2, hv2, hw2, hmi2, hb2⟩ := ih { s with
        bits := ms'.flatMap (fun m => packBits m.1 m.2) ++ tail,
        miniBlockIdx := s.miniBlockIdx + 1,
        deltaBitWidth := m.1,
        lastValue := (runDeltas s.lastValue s.minDelta m.2).2,
        valuesCurrentMini := 0 } tail rfl
      (by
        show s.widths.length = s.miniBlockIdx + 1 + 1 + ms'.length
        omega)
      (by
        intro k hk2
        have h3 := hk (k + 1) (by rw [List.length_cons]; omega)
        rw [List.getD_cons_succ] at h3
        show s.widths.getD (s.miniBlockIdx + 1 + 1 + k) 0 = _
        rw [show s.miniBlockIdx + 1 + 1 + k = s.miniBlockIdx + 1 + (k + 1)
          from by omega]
        exact h3)
      rfl
      (fun mm hmm => hm mm (List.mem_cons_of_mem m hmm))
      hpos
      (fun mm hmm => hx mm (List.mem_cons_of_mem m hmm))
    dsimp only at hloop2 hmi2 hw2
    refine ⟨s2, ?_, hv2, by rw [hw2], ?_, hb2⟩
    · rw [hlen, getLoop_add, hm2.symm, hone]
      dsimp only
      rw [hm2, hloop2]
      dsimp only
      rw [runMinis]
    · rw [hmi2]
      show s.miniBlockIdx + 1 + ms'.length = s.miniBlockIdx + (m :: ms').length
      rw [List.length_cons]
      omega

theorem getLoop_block (b : BlockSpec) (tail : List Bool) (s : DeltaState)
    (hwf : BlockWF b)
    (h0 : s.valuesCurrentMini = 0)
    (hmi : ¬ s.miniBlockIdx + 1 < s.widths.length)
    (hbits : s.bits = encodeBlockSpec b ++ tail) :
    ∃ s2 : DeltaState,
      getLoop (blockCount b) s = some (blockExpected b, s2) ∧
      s2.valuesCurrentMini = 0 ∧ ¬ s2.miniBlockIdx + 1 < s2.widths.length ∧
      s2.bits = tail := by
  obtain ⟨hper, hlen, hbl, hnl, hf1, hf2, hd1, hd2, hm⟩ := hwf
  obtain ⟨m0, ms', hms⟩ : ∃ m0 ms', b.minis = m0 :: ms' := by
    cases hmm : b.minis with
    | nil =>
      rw [hmm, List.length_nil] at hlen
      omega
    | cons a l => exact ⟨a, l, rfl⟩
  have hm0 := hm m0 (by rw [hms]; exact List.mem_cons_self m0 ms')
  have hbc : blockCount b = b.per * b.minis.length + 1 := by
    rw [blockCount]
    omega
  have hw0 : (b.minis.map Prod.fst).getD 0 0 = m0.1 := by
    rw [getD_map_fst, hms, List.getD_cons_zero]
  rw [hbc, getLoop, if_pos h0, if_neg hmi,
    initBlock_encoded b tail s
      ⟨hper, hlen, hbl, hnl, hf1, hf2, hd1, hd2, hm⟩ hbits]
  dsimp only
  have hsplit : b.per * b.minis.length = m0.2.length + b.per * ms'.length := by
    rw [hms, List.length_cons, hm0.2.1]
    ring
  rw [hsplit, getLoop_add]
  have hbits0 : b.minis.flatMap (fun m => packBits m.1 m.2) ++ tail =
      packBits m0.1 m0.2 ++ (ms'.flatMap (fun m => packBits m.1 m.2) ++ tail) := by
    rw [hms, List.flatMap_cons, List.append_assoc]
  have hdel := getLoop_deltas m0.2 { s with
      bits := b.minis.flatMap (fun m => packBits m.1 m.2) ++ tail,
      valuesCurrentBlock := m0.2.length + b.per * ms'.length,
      numMiniBlocks := b.minis.length,
      valuesPerMini := b.per,
      valuesCurrentMini := b.per,
      minDelta := b.minDelta,
      widths := b.minis.map Prod.fst,
      miniBlockIdx := 0,
      deltaBitWidth := (b.minis.map Prod.fst).getD 0 0,
      lastValue := b.first } (ms'.flatMap (fun m => packBits m.1 m.2) ++ tail)
    (by
      intro x hx
      show x < 2 ^ (b.minis.map Prod.fst).getD 0 0
      rw [hw0]
      exact hm0.2.2.2 x hx)
    (by
      show b.minis.flatMap (fun m => packBits m.1 m.2) ++ tail = _
      rw [hbits0]
      show packBits m0.1 m0.2 ++ _ = packBits ((b.minis.map Prod.fst).getD 0 0) m0.2 ++ _
      rw [hw0])
    (by
      show b.per = m0.2.length
      exact hm0.2.1.symm)
  dsimp only at hdel
  rw [hdel]
  dsimp only
  obtain ⟨s2, hloop2, hv2, hw2, hmi2, hb2⟩ := getLoop_minis_tail ms' { s with
      bits := ms'.flatMap (fun m => packBits m.1 m.2) ++ tail,
      valuesCurrentBlock := m0.2.length + b.per * ms'.length,
      numMiniBlocks := b.minis.length,
      valuesPerMini := b.per,
      valuesCurrentMini := 0,
      minDelta := b.minDelta,
      widths := b.minis.map Prod.fst,
      miniBlockIdx := 0,
      deltaBitWidth := (b.minis.map Prod.fst).getD 0 0,
      lastValue := (runDeltas b.first b.minDelta m0.2).2 } tail rfl
    (by
      show (List.map Prod.fst b.minis).length = 0 + 1 + ms'.length
      rw [List.length_map, hms, List.length_cons]
      omega)
    (by
      intro k hk2
      show (List.map Prod.fst b.minis).getD (0 + 1 + k) 0 = _
      have hidx : 0 + 1 + k = k + 1 := by omega
      rw [hidx, getD_map_fst, hms, List.getD_cons_succ])
    rfl
    (fun mm hmm =>
      (hm mm (by rw [hms]; exact List.mem_cons_of_mem m0 hmm)).2.1)
    hper
    (fun mm hmm x hxm =>
      (hm mm (by rw [hms]; exact List.mem_cons_of_mem m0 hmm)).2.2.2 x hxm)
  dsimp only at hloop2 hmi2 hw2
  rw [hloop2]
  dsimp only
  refine ⟨s2, ?_, hv2, ?_, hb2⟩
  · rw [blockExpected, hms, runMinis]
  · rw [hw2, hmi2]
    show ¬ 0 + ms'.length + 1 < (List.map Prod.fst b.minis).length
    rw [List.length_map, hms, List.length_cons]
    omega

theorem getLoop_blocks : ∀ (blocks : List BlockSpec) (s : DeltaState)
    (tail : List Bool),
    (∀ b ∈ blocks, BlockWF b) →
    s.valuesCurrentMini = 0 →
    ¬ s.miniBlockIdx + 1 < s.widths.length →
    s.bits = blocks.flatMap encodeBlockSpec ++ tail →
    ∃ s2 : DeltaState,
      getLoop ((blocks.map blockCount).sum) s =
        some (blocks.flatMap blockExpected, s2) ∧
      s2.valuesCurrentMini = 0 ∧ ¬ s2.miniBlockIdx + 1 < s2.widths.length ∧
      s2.bits = tail := by
  intro blocks
  induction blocks with
  | nil =>
    intro s tail _ h0 hmi hbits
    refine ⟨s, rfl, h0, hmi, ?_⟩
    rw [hbits]
    rfl
  | cons b bs ih =>
    intro s tail hwf h0 hmi hbits
    rw [List.map_cons, List.sum_cons, getLoop_add]
    obtain ⟨s1, hl1, h01, hmi1, hb1⟩ := getLoop_block b
      (bs.flatMap encodeBlockSpec ++ tail) s (hwf b (List.mem_cons_self b bs))
      h0 hmi (by rw [hbits, List.flatMap_cons, List.append_assoc])
    obtain ⟨s2, hl2, h02, hmi2, hb2⟩ := ih s1 tail
      (fun x hx => hwf x (List.mem_cons_of_mem b hx)) h01 hmi1 hb1
    rw [hl1]
    dsimp only
    rw [hl2]
    dsimp only
    exact ⟨s2, by rw [List.flatMap_cons], h02, hmi2, hb2⟩

/-- C5 (amended): over any wellformed sequence of encoded blocks, the decoder
emits each block's `first_value` followed, for each raw delta, by
`v = wrap32 (v_prev + wrap32 (min_delta + raw_delta))` — 32-bit wrapping
arithmetic (`last_value_` and `min_delta_` are `int32` even for 64-bit
streams), reading block headers automatically at block boundaries; the second
conjunct spells out the single-step recurrence. -/
theorem c5_delta_decoder_recurrence (blocks : List BlockSpec)
    (hwf : ∀ b ∈ blocks, BlockWF b) :
    deltaDecode (blocks.flatMap encodeBlockSpec) ((blocks.map blockCount).sum)
        ((blocks.map blockCount).sum) =
      some (blocks.flatMap blockExpected) ∧
    (∀ (lv minD : Int) (d : Nat) (ds : List Nat),
      runDeltas lv minD (d :: ds) =
        ((wrap32 (lv + wrap32 (minD + Int.ofNat d)) ::
          (runDeltas (wrap32 (lv + wrap32 (minD + Int.ofNat d))) minD ds).1),
         (runDeltas (wrap32 (lv + wrap32 (minD + Int.ofNat d))) minD ds).2)) := by
  constructor
  · rw [deltaDecode, Nat.min_self]
    obtain ⟨s2, hl, _, _, _⟩ := getLoop_blocks blocks
      (deltaSetData (blocks.flatMap encodeBlockSpec)
        ((blocks.map blockCount).sum)) [] hwf rfl
      (by
        show ¬ 0 + 1 < ([] : List Nat).length
        rw [List.length_nil]
        omega)
      (by
        show blocks.flatMap encodeBlockSpec = _
        rw [List.append_nil])
    rw [hl]
    rfl
  · intro lv minD d ds
    rw [runDeltas]

theorem c5_delta_decoder_recurrence_witness :
    (∀ b ∈ [deltaBlockA, deltaBlockB], BlockWF b) ∧
    (deltaDecode ([deltaBlockA, deltaBlockB].flatMap encodeBlockSpec)
        (([deltaBlockA, deltaBlockB].map blockCount).sum)
        (([deltaBlockA, deltaBlockB].map blockCount).sum) =
      some ([deltaBlockA, deltaBlockB].flatMap blockExpected) ∧
    (∀ (lv minD : Int) (d : Nat) (ds : List Nat),
      runDeltas lv minD (d :: ds) =
        ((wrap32 (lv + wrap32 (minD + Int.ofNat d)) ::
          (runDeltas (wrap32 (lv + wrap32 (minD + Int.ofNat d))) minD ds).1),
         (runDeltas (wrap32 (lv + wrap32 (minD + Int.ofNat d))) minD ds).2))) :=
  ⟨by decide, c5_delta_decoder_recurrence [deltaBlockA, deltaBlockB] (by decide)⟩

/-- C5 counterexample to the exact-arithmetic reading: a single block with
`first_value = 0` and `min_delta = 2^30` decodes its third value to
`-2^31` (32-bit wrap), not to `v_1 + (min_delta + 0) = 2^31`. -/
theorem c5_counterexample :
    deltaDecode (encodeBlockSpec bugBlock) 3 3 =
      some [0, 1073741824, -2147483648] ∧
    ¬ ((-2147483648 : Int) = 1073741824 + (1073741824 + 0)) := by
  constructor
  · decide
  · decide
